import Mathlib

/-!
A shallow embedding of the decision-tree learner in `tools/learncomm.py`
(with `tools/learn.py` sharing the same entropy function), together with
proofs of the specified properties.

Modelling conventions:
* Python runtime values stored in an entity attribute are modelled by `PyVal`
  (`none` models Python `None`, missing attributes read as `None`).
* Floating point numbers are modelled by real numbers `ℝ`; `math.log2` is
  `Real.logb 2`.
* A Python function that can raise is modelled with `Except Err` / `Option`:
  `Err.invalidSplit` is `Feature.InvalidSplit`, `Err.assertErr` an
  `AssertionError`, `Err.zeroDivErr` a `ZeroDivisionError`, `Err.typeErr` a
  `TypeError`, `Err.unknownFeat` a `KeyError` on the feature registry.
* Python dictionaries (which iterate in insertion order) are modelled as
  association lists in insertion order; the sets used by
  `MembershipFeature.split` are modelled as duplicate-free lists in insertion
  order.
-/

namespace Learncomm

/-- A Python runtime value as used by the entity records:
`None`, a string, an integer, or a boolean. -/
inductive PyVal where
  | none : PyVal
  | str : String → PyVal
  | int : Int → PyVal
  | bool : Bool → PyVal
deriving DecidableEq, Repr

/-- An entity (a `CommentEntry` row): a designated classification label
`key` plus a finite attribute map, modelled as an association list.
`eid` stands for the object identity of the Python record, letting two
records with equal contents stay distinct. -/
structure Entity where
  eid : Nat
  key : String
  attrs : List (String × PyVal)
deriving DecidableEq, Repr

/-- `e[attr]`: attribute lookup; a missing attribute reads as `None`. -/
def Entity.get (e : Entity) (a : String) : PyVal :=
  match e.attrs.lookup a with
  | .some v => v
  | .none => .none

/-- `calcetp` restricted to the arithmetic:
`n = sum(values)`, result `(Σ v * log2 (n / v)) / n`, with real division
(so it is total; the checked version is `calcetp`). -/
noncomputable def calcetpR (values : List Nat) : ℝ :=
  let n : ℝ := (values.sum : ℝ)
  (values.map (fun v : ℕ => (v : ℝ) * Real.logb 2 (n / (v : ℝ)))).sum / n

/-- `calcetp(values)` from `learncomm.py` (and, applied to the counts of a
dictionary, `calcetp(keys)` from `learn.py`): the Shannon entropy
`Σ v·log2(n/v) / n` of a list of counts.  A zero count or an empty list makes
the Python code raise `ZeroDivisionError`, modelled as `Option.none`. -/
noncomputable def calcetp (values : List Nat) : Option ℝ :=
  if values ≠ [] ∧ ∀ v ∈ values, 0 < v then .some (calcetpR values) else .none

/-- The `if k in d: d[k] ⟵ f(d[k]) else: d[k] = init` pattern shared by the
dictionary-building loops, on an insertion-ordered dictionary: update in
place when the key exists, append `(k, init)` otherwise. -/
def upsert {α β : Type} [DecidableEq α] (d : List (α × β)) (k : α)
    (f : β → β) (init : β) : List (α × β) :=
  if (d.lookup k).isSome then
    d.map (fun kv => if kv.1 = k then (kv.1, f kv.2) else kv)
  else d ++ [(k, init)]

/-- `d[k] = d.get(k, 0) + 1` on an insertion-ordered dictionary. -/
def bump (d : List (String × Nat)) (k : String) : List (String × Nat) :=
  upsert d k (· + 1) 1

/-- `countkeys(ents)`: label→count in first-appearance (dict insertion)
order. -/
def countkeys (ents : List Entity) : List (String × Nat) :=
  ents.foldl (fun d e => bump d e.key) []

/-- `bestkey(keys)`: the first key carrying the maximal count (the running
maximum is replaced only on a strictly greater count).  The Python `assert`
on an empty dictionary is modelled as `Option.none`. -/
def bestkey (keys : List (String × Nat)) : Option String :=
  (keys.foldl (fun best kv =>
    match best with
    | Option.none => .some kv
    | .some mkv => if mkv.2 < kv.2 then .some kv else .some mkv)
    (Option.none : Option (String × Nat))).map Prod.fst

/-- `entetp(ents) = calcetp(countkeys(ents).values())` (total version; every
call site passes a non-empty entity list, where it agrees with the checked
composition). -/
noncomputable def entetpR (ents : List Entity) : ℝ :=
  calcetpR ((countkeys ents).map Prod.snd)

/-- The Python exceptions reaching the core: `Feature.InvalidSplit`, a failed
`assert`, `ZeroDivisionError`, `TypeError`, a registry `KeyError`, plus the
out-of-fuel marker of the fuelled recursion used to model `build`. -/
inductive Err where
  | invalidSplit : Err
  | assertErr : Err
  | zeroDivErr : Err
  | typeErr : Err
  | unknownFeat : Err
  | noFuel : Err
deriving DecidableEq, Repr

/-- The closed set of feature classes registered by the trainer:
`DiscreteFeature`, `DiscreteFeatureOne`, `MembershipFeature`,
`MembershipFeatureOne`, `QuantitativeFeature`. -/
inductive Feature where
  | DF (attr : String)
  | DF1 (index : Nat) (attr : String)
  | MF (attr : String)
  | MF1 (nmems : Nat) (attr : String)
  | QF (attr : String)
deriving DecidableEq, Repr

/-- `self.name` as set by each constructor: class prefix + attribute. -/
def Feature.name : Feature → String
  | .DF a => "DF:" ++ a
  | .DF1 i a => "DF" ++ toString i ++ ":" ++ a
  | .MF a => "MF:" ++ a
  | .MF1 nm a => "MF" ++ toString nm ++ ":" ++ a
  | .QF a => "QF:" ++ a

/-- `DiscreteFeature.get`: the raw attribute value. -/
def dfGet (a : String) (e : Entity) : PyVal := e.get a

/-- `DiscreteFeatureOne.get`: the `index`-th comma-token of the attribute,
`None` when the attribute is `None` or has too few tokens (a non-string
value, which would crash Python, is modelled as `None`). -/
def df1Get (i : Nat) (a : String) (e : Entity) : PyVal :=
  match e.get a with
  | .str s =>
      let f := s.splitOn ","
      if f.length ≤ i then .none else .str (f.getD i "")
  | _ => .none

/-- `MembershipFeature.get`: the comma-token list of the attribute, `[]` when
it is `None` (a non-string value, which would crash Python, reads as `[]`). -/
def mfGet (a : String) (e : Entity) : List String :=
  match e.get a with
  | .str s => s.splitOn ","
  | _ => []

/-- `MembershipFeatureOne.get`: only the first `nmems` comma-tokens. -/
def mf1Get (nm : Nat) (a : String) (e : Entity) : List String :=
  (mfGet a e).take nm

/-- `QuantitativeFeature.get`: the attribute read as a number, `none` when
undefined.  The trainer feeds only integer-valued attributes to this class,
so numeric values are modelled as `Int`. -/
def qfGet (a : String) (e : Entity) : Option Int :=
  match e.get a with
  | .int n => .some n
  | _ => .none

/-- `DiscreteFeature.split`'s grouping dictionary: group the entities by the
extracted value, keys in first-appearance order, each group in entity
order. -/
def dfgroups (g : Entity → PyVal) (ents : List Entity) :
    List (PyVal × List Entity) :=
  ents.foldl (fun d e => upsert d (g e) (· ++ [e]) [e]) []

/-- `DiscreteFeature.split` (shared by `DiscreteFeatureOne` through its
overridden `get`): group by extracted value; fewer than 2 groups signals
`InvalidSplit`; the weighted entropy is `Σ |es|·entetp(es) / n`; the split
argument is `None` and the partitions are the groups in dictionary order. -/
noncomputable def dfsplit (g : Entity → PyVal) (ents : List Entity) :
    Except Err (ℝ × PyVal × List (PyVal × List Entity)) :=
  if ents.length < 2 then .error .assertErr else
  let d := dfgroups g ents
  if d.length < 2 then .error .invalidSplit else
  let avgetp := ((d.map (fun kv => (kv.2.length : ℝ) * entetpR kv.2)).sum) /
    (ents.length : ℝ)
  .ok (avgetp, .none, d)

/-- `MembershipFeature.split`'s token dictionary: for each token, the
entities containing it (Python keeps them in a `set`; modelled as a
duplicate-free list in insertion order). -/
def mfgroups (g : Entity → List String) (ents : List Entity) :
    List (String × List Entity) :=
  ents.foldl (fun d e =>
    (g e).foldl (fun d' v =>
      upsert d' v (fun es => if e ∈ es then es else es ++ [e]) [e]) d) []

open scoped Classical in
/-- The candidate loop of `MembershipFeature.split`: for each token group
`(v, es)` with non-empty complement `nes`, score
`(|es|·entetp(es) + |nes|·entetp(nes)) / n` and keep the strictly best
candidate (the first one wins ties).  Python stores `(v, nes)` and reads the
member side back as `d[v]`, which is exactly `es`, carried here directly. -/
noncomputable def mfscan (ents : List Entity) (n : ℝ) :
    List (String × List Entity) →
    Option (ℝ × String × List Entity × List Entity) →
    Option (ℝ × String × List Entity × List Entity)
  | [], best => best
  | (v, es) :: rest, best =>
      let nes := ents.filter (fun e => e ∉ es)
      if nes = [] then mfscan ents n rest best
      else
        let avgetp := ((es.length : ℝ) * entetpR es +
          (nes.length : ℝ) * entetpR nes) / n
        match best with
        | .none => mfscan ents n rest (.some (avgetp, v, es, nes))
        | .some b =>
            if avgetp < b.1 then mfscan ents n rest (.some (avgetp, v, es, nes))
            else mfscan ents n rest (.some b)

/-- `MembershipFeature.split` (shared by `MembershipFeatureOne` through its
overridden `get`): build the token dictionary, signal `InvalidSplit` on
fewer than 2 tokens or when no token leaves a non-empty complement, else
return the best token as argument with partitions
`[(True, members), (False, non-members)]`. -/
noncomputable def mfsplit (g : Entity → List String) (ents : List Entity) :
    Except Err (ℝ × PyVal × List (PyVal × List Entity)) :=
  if ents.length < 2 then .error .assertErr else
  let d := mfgroups g ents
  if d.length < 2 then .error .invalidSplit else
  match mfscan ents (ents.length : ℝ) d .none with
  | .none => .error .invalidSplit
  | .some (minetp, v, es, nes) =>
      .ok (minetp, .str v, [(.bool true, es), (.bool false, nes)])

/-- The weighted entropy of the cut of `es` at index `i` out of `n`:
`(i·entetp(es[:i]) + (n-i)·entetp(es[i:])) / n`. -/
noncomputable def cutEtp (es : List Entity) (n i : Nat) : ℝ :=
  ((i : ℝ) * entetpR (es.take i) +
    ((n - i : ℕ) : ℝ) * entetpR (es.drop i)) / (n : ℝ)

open scoped Classical in
/-- One step of the cut scan of `QuantitativeFeature.split` at index `i`:
skip when the value equals the previous one, otherwise score the cut and
keep the strictly best cut (the first one wins ties).  The state is
`(v0, best)`. -/
noncomputable def qfstep (es : List Entity) (vs : List Int) (n : Nat)
    (st : Int × Option (ℝ × Nat)) (i : Nat) : Int × Option (ℝ × Nat) :=
  let v1 := vs.getD i 0
  if st.1 = v1 then st
  else
    let avgetp := cutEtp es n i
    match st.2 with
    | .none => (v1, .some (avgetp, i))
    | .some b => if avgetp < b.1 then (v1, .some (avgetp, i)) else (v1, .some b)

/-- The cut scan of `QuantitativeFeature.split` over `i ∈ range(1, n)`,
started with `v0 = vs[0]` and no best cut. -/
noncomputable def qfscan (es : List Entity) (vs : List Int) (n : Nat) :
    Option (ℝ × Nat) :=
  ((List.range' 1 (n - 1)).foldl (qfstep es vs n)
    (vs.getD 0 0, (Option.none : Option (ℝ × Nat)))).2

/-- The sort order of `pairs.sort(key=lambda ev: ev[1])`. -/
def pairLE (p q : Entity × Int) : Prop := p.2 ≤ q.2

instance : DecidableRel pairLE := fun p q => inferInstanceAs (Decidable (p.2 ≤ q.2))

instance : IsTotal (Entity × Int) pairLE := ⟨fun p q => Int.le_total p.2 q.2⟩

instance : IsTrans (Entity × Int) pairLE := ⟨fun _ _ _ h h' => le_trans h h'⟩

/-- The `(entity, value)` pairs of the entities with a defined value, in
entity order (`pairs` before sorting). -/
def qfpairs0 (g : Entity → Option Int) (ents : List Entity) :
    List (Entity × Int) :=
  ents.filterMap (fun e => (g e).map (fun v => (e, v)))

/-- `pairs.sort(key=lambda ev: ev[1])`: the defined pairs sorted by value
(Python's sort is stable; so is insertion sort). -/
def qfpairs (g : Entity → Option Int) (ents : List Entity) :
    List (Entity × Int) :=
  (qfpairs0 g ents).insertionSort pairLE

/-- The entities whose value is undefined, in entity order. -/
def qfundefs (g : Entity → Option Int) (ents : List Entity) : List Entity :=
  ents.filter (fun e => g e = Option.none)

/-- `QuantitativeFeature.split`: separate defined from undefined values,
signal `InvalidSplit` when no value is defined, sort the defined pairs by
value, scan the cuts, signal `InvalidSplit` when no cut exists, else return
the value at the best cut as threshold with partitions
`[('lt', below), ('ge', at-or-above)]` plus `('un', undefined)` when any
entity has an undefined value. -/
noncomputable def qfsplit (g : Entity → Option Int) (ents : List Entity) :
    Except Err (ℝ × PyVal × List (PyVal × List Entity)) :=
  if ents.length < 2 then .error .assertErr else
  if qfpairs0 g ents = [] then .error .invalidSplit else
  match qfscan ((qfpairs g ents).map Prod.fst) ((qfpairs g ents).map Prod.snd)
      (qfpairs g ents).length with
  | .none => .error .invalidSplit
  | .some (minetp, m) =>
      .ok (minetp, .int (((qfpairs g ents).map Prod.snd).getD m 0),
        if qfundefs g ents = [] then
          [(PyVal.str "lt", ((qfpairs g ents).map Prod.fst).take m),
           (PyVal.str "ge", ((qfpairs g ents).map Prod.fst).drop m)]
        else
          [(PyVal.str "lt", ((qfpairs g ents).map Prod.fst).take m),
           (PyVal.str "ge", ((qfpairs g ents).map Prod.fst).drop m),
           (PyVal.str "un", qfundefs g ents)])

/-- `split` with dynamic dispatch: each class' `split` applied to its own
`get`. -/
noncomputable def Feature.split : Feature → List Entity →
    Except Err (ℝ × PyVal × List (PyVal × List Entity))
  | .DF a => dfsplit (dfGet a)
  | .DF1 i a => dfsplit (df1Get i a)
  | .MF a => mfsplit (mfGet a)
  | .MF1 nm a => mfsplit (mf1Get nm a)
  | .QF a => qfsplit (qfGet a)

/-- `ident(arg, e)` with dynamic dispatch, `Option.none` modelling the
`TypeError` Python raises when a quantitative threshold is compared with an
incompatible type.  The discrete family returns the extracted value, the
membership family whether the chosen token is among the entity's tokens, the
quantitative family one of `'lt'/'ge'/'un'` against the threshold (a Python
`bool` threshold compares as an integer). -/
def Feature.ident : Feature → PyVal → Entity → Option PyVal
  | .DF a, _, e => .some (dfGet a e)
  | .DF1 i a, _, e => .some (df1Get i a e)
  | .MF a, arg, e =>
      .some (.bool (match arg with | .str s => decide (s ∈ mfGet a e) | _ => false))
  | .MF1 nm a, arg, e =>
      .some (.bool (match arg with | .str s => decide (s ∈ mf1Get nm a e) | _ => false))
  | .QF a, arg, e =>
      match qfGet a e with
      | .none => .some (.str "un")
      | .some v =>
          match arg with
          | .int w => .some (if v < w then .str "lt" else .str "ge")
          | .bool b => .some (if v < (if b then 1 else 0) then .str "lt" else .str "ge")
          | _ => .none

/-- The induced tree: `TreeBranch(feature, arg, default, children)` with the
children dictionary as an insertion-ordered association list, or
`TreeLeaf(key)`. -/
inductive Tree where
  | leaf (key : String) : Tree
  | branch (feat : Feature) (arg : PyVal) (dflt : String)
      (children : List (PyVal × Tree)) : Tree

mutual

/-- `TreeBranch.test` / `TreeLeaf.test`: a leaf returns its stored key; a
branch routes by `ident` and recurses, falling back to its stored default
when the branch value is absent from `children` (Python catches the
`KeyError`).  `Option.none` models the `TypeError` a quantitative branch
with an ill-typed threshold can raise in `ident`. -/
def Tree.test : Tree → Entity → Option String
  | .leaf k, _ => .some k
  | .branch f arg dflt cs, e =>
      match f.ident arg e with
      | .none => .none
      | .some v => testLook e dflt v cs

/-- The children-dictionary lookup of `TreeBranch.test` fused with the
recursive call; an absent key yields the stored default. -/
def testLook (e : Entity) (dflt : String) (v : PyVal) :
    List (PyVal × Tree) → Option String
  | [] => .some dflt
  | (v', c) :: rest => if v' = v then c.test e else testLook e dflt v rest

end

/-- The persisted form of a tree: a branch is the tuple
`(featureName, arg, default, [(branchValue, child), ...])`, a leaf is the
bare label (the sole shape discriminant on import). -/
inductive PTree where
  | leaf (key : String) : PTree
  | node (fname : String) (arg : PyVal) (dflt : String)
      (children : List (PyVal × PTree)) : PTree

mutual

/-- `export_tree`: a branch becomes
`(feature.name, arg, default, [(v, exported child), ...])`, a leaf its bare
key. -/
def export_tree : Tree → PTree
  | .leaf k => .leaf k
  | .branch f arg dflt cs => .node f.name arg dflt (exportChildren cs)

/-- The children list of `export_tree`, exported in dictionary order. -/
def exportChildren : List (PyVal × Tree) → List (PyVal × PTree)
  | [] => []
  | (v, c) :: rest => (v, export_tree c) :: exportChildren rest

end

mutual

/-- `TreeBuilder.import_tree`: a tuple is rebuilt as a branch, resolving the
feature name through the registry (`KeyError`, modelled as
`Err.unknownFeat`, when absent); anything else is a leaf. -/
def import_tree (feats : List Feature) : PTree → Except Err Tree
  | .leaf k => .ok (.leaf k)
  | .node fname arg dflt cs =>
      match feats.find? (fun f => f.name = fname) with
      | .none => .error .unknownFeat
      | .some f =>
          match importChildren feats cs with
          | .error err => .error err
          | .ok cs' => .ok (.branch f arg dflt cs')

/-- The children list of `import_tree`, imported in order. -/
def importChildren (feats : List Feature) :
    List (PyVal × PTree) → Except Err (List (PyVal × Tree))
  | [] => .ok []
  | (v, c) :: rest =>
      match import_tree feats c with
      | .error err => .error err
      | .ok c' =>
          match importChildren feats rest with
          | .error err => .error err
          | .ok rest' => .ok ((v, c') :: rest')

end

open scoped Classical in
/-- The feature-selection loop of `TreeBuilder.build`: try each registered
feature in registry order, skip those raising `InvalidSplit`, propagate any
other failure, and keep the candidate with strictly smallest weighted
entropy (the earliest feature wins ties). -/
noncomputable def selectbranch (ents : List Entity) :
    List Feature → Option (ℝ × Feature × PyVal × List (PyVal × List Entity)) →
    Except Err (Option (ℝ × Feature × PyVal × List (PyVal × List Entity)))
  | [], best => .ok best
  | f :: fs, best =>
      match f.split ents, best with
      | .error .invalidSplit, _ => selectbranch ents fs best
      | .error err, _ => .error err
      | .ok (etp, arg, sp), .none => selectbranch ents fs (.some (etp, f, arg, sp))
      | .ok (etp, arg, sp), .some b =>
          if etp < b.1 then selectbranch ents fs (.some (etp, f, arg, sp))
          else selectbranch ents fs (.some b)

/-- One child of the recursion of `TreeBuilder.build`: recurse on the
subset; a `None` result becomes a leaf holding the subset's majority label
(whose `assert` is modelled as `Err.assertErr` on an empty subset). -/
noncomputable def buildChild (recur : List Entity → Except Err (Option Tree))
    (p : PyVal × List Entity) : Except Err (PyVal × Tree) :=
  match recur p.2 with
  | .error err => .error err
  | .ok (.some t) => .ok (p.1, t)
  | .ok .none =>
      match bestkey (countkeys p.2) with
      | .some b => .ok (p.1, .leaf b)
      | .none => .error .assertErr

/-- The children loop of `TreeBuilder.build` over the winning split's
partitions, in order. -/
noncomputable def buildChildren
    (recur : List Entity → Except Err (Option Tree)) :
    List (PyVal × List Entity) → Except Err (List (PyVal × Tree))
  | [] => .ok []
  | p :: rest =>
      match buildChild recur p with
      | .error err => .error err
      | .ok c =>
          match buildChildren recur rest with
          | .error err => .error err
          | .ok cs => .ok (c :: cs)

open scoped Classical in
/-- `TreeBuilder.build(ents)`, with the recursion depth made explicit as
fuel (the partitions of a successful split are strictly smaller than their
parent, so `|ents| + 1` fuel is always enough; see the termination theorem):
compute the label counts and their entropy (`ZeroDivisionError` on an empty
set), stop with `None` below the entropy or count thresholds, select the
best feature (stop with `None` when none splits), then build one child per
partition — a leaf holding the subset's majority label where the recursion
answered `None` — under the majority label of the whole set as default. -/
noncomputable def buildF (mk : Nat) (me : ℝ) (feats : List Feature) :
    Nat → List Entity → Except Err (Option Tree)
  | 0, _ => .error .noFuel
  | fuel + 1, ents =>
      match calcetp ((countkeys ents).map Prod.snd) with
      | .none => .error .zeroDivErr
      | .some etp =>
          if etp < me then .ok .none
          else if ents.length < mk then .ok .none
          else
            match selectbranch ents feats .none with
            | .error err => .error err
            | .ok .none => .ok .none
            | .ok (.some (_, feat, arg, sp)) =>
                match bestkey (countkeys ents) with
                | .none => .error .assertErr
                | .some dflt =>
                    match buildChildren (buildF mk me feats fuel) sp with
                    | .error err => .error err
                    | .ok cs => .ok (.some (.branch feat arg dflt cs))

/-- `TreeBuilder.build(ents)` with the builder's configuration
`(minkeys, minetp, features)`: the fuelled recursion started with enough
fuel. -/
noncomputable def TreeBuilder.build (mk : Nat) (me : ℝ) (feats : List Feature)
    (ents : List Entity) : Except Err (Option Tree) :=
  buildF mk me feats (ents.length + 1) ents

/-- The scoring loop of `main` (testing phase): per-label actual counts
`keys`, predicted counts `resp`, and correct counts `correct`, accumulated
entity by entity (`Option.none` models a classification `TypeError`). -/
def score (t : Tree) :
    List Entity →
    List (String × Nat) × List (String × Nat) × List (String × Nat) →
    Option (List (String × Nat) × List (String × Nat) × List (String × Nat))
  | [], acc => .some acc
  | e :: rest, (keys, resp, correct) =>
      match t.test e with
      | .none => .none
      | .some k =>
          score t rest (bump keys e.key, bump resp k,
            if e.key = k then bump correct k else correct)

/-- Trees whose every branch carries a threshold `ident` accepts on any
entity (the §3 data-model invariant: a branch's argument is what its
feature's `split` produced).  Every tree built by `TreeBuilder.build`
satisfies this. -/
inductive Tree.WF : Tree → Prop where
  | leaf (k : String) : Tree.WF (.leaf k)
  | branch {f : Feature} {arg : PyVal} {dflt : String}
      {cs : List (PyVal × Tree)} :
      (∀ e, (f.ident arg e).isSome) → (∀ p ∈ cs, Tree.WF p.2) →
      Tree.WF (.branch f arg dflt cs)

/-- Trees whose every branch feature belongs to the registry `feats`. -/
inductive Tree.UsesFeats (feats : List Feature) : Tree → Prop where
  | leaf (k : String) : Tree.UsesFeats feats (.leaf k)
  | branch {f : Feature} {arg : PyVal} {dflt : String}
      {cs : List (PyVal × Tree)} :
      f ∈ feats → (∀ p ∈ cs, Tree.UsesFeats feats p.2) →
      Tree.UsesFeats feats (.branch f arg dflt cs)

/-! Concrete data used by the witnesses. -/

/-- A two-entity training set separating labels `A`/`B` on attributes
`a` and `b`. -/
def entA : Entity := ⟨0, "A", [("a", .str "x"), ("b", .str "u")]⟩

/-- See `entA`. -/
def entB : Entity := ⟨1, "B", [("a", .str "y"), ("b", .str "v")]⟩

/-- The two-entity demonstration set. -/
def demoPair : List Entity := [entA, entB]

/-- The tree built from `demoPair` with the single feature `DF:a`. -/
def demoTree : Tree :=
  .branch (.DF "a") .none "A" [(.str "x", .leaf "A"), (.str "y", .leaf "B")]

/-- `{value:1,label:A}` of the quantitative test property, on attribute `v`. -/
def qA1 : Entity := ⟨0, "A", [("v", .int 1)]⟩

/-- `{value:2,label:A}`. -/
def qA2 : Entity := ⟨1, "A", [("v", .int 2)]⟩

/-- `{value:2,label:A}`. -/
def qA3 : Entity := ⟨2, "A", [("v", .int 2)]⟩

/-- `{value:5,label:B}`. -/
def qB5 : Entity := ⟨3, "B", [("v", .int 5)]⟩

/-- `{value:9,label:B}`. -/
def qB9 : Entity := ⟨4, "B", [("v", .int 9)]⟩

/-- The five entities of the quantitative test property. -/
def demoQ : List Entity := [qA1, qA2, qA3, qB5, qB9]

/-! ### Dictionary bookkeeping -/

section Dict

variable {α β : Type} [DecidableEq α]

theorem lookup_cons (k k1 : α) (b : β) (rest : List (α × β)) :
    List.lookup k ((k1, b) :: rest) =
      if k = k1 then some b else List.lookup k rest := by
  by_cases h : k = k1
  · subst h; simp [List.lookup]
  · have hb : (k == k1) = false := by simp [h]
    simp [List.lookup, hb, h]

theorem lookup_append_left {l₁ : List (α × β)} {k : α}
    (h : (l₁.lookup k).isSome) (l₂ : List (α × β)) :
    (l₁ ++ l₂).lookup k = l₁.lookup k := by
  induction l₁ with
  | nil => simp [List.lookup] at h
  | cons kv rest ih =>
      obtain ⟨k1, b1⟩ := kv
      rw [List.cons_append, lookup_cons, lookup_cons]
      by_cases hk : k = k1
      · simp [hk]
      · rw [if_neg hk, if_neg hk]
        rw [lookup_cons, if_neg hk] at h
        exact ih h

theorem lookup_append_right {l₁ : List (α × β)} {k : α}
    (h : l₁.lookup k = .none) (l₂ : List (α × β)) :
    (l₁ ++ l₂).lookup k = l₂.lookup k := by
  induction l₁ with
  | nil => simp
  | cons kv rest ih =>
      obtain ⟨k1, b1⟩ := kv
      rw [lookup_cons] at h
      by_cases hk : k = k1
      · rw [if_pos hk] at h; cases h
      · rw [if_neg hk] at h
        rw [List.cons_append, lookup_cons, if_neg hk]
        exact ih h

theorem lookup_isSome_iff (d : List (α × β)) (k : α) :
    (d.lookup k).isSome ↔ k ∈ d.map Prod.fst := by
  induction d with
  | nil => simp [List.lookup]
  | cons kv rest ih =>
      obtain ⟨k1, b1⟩ := kv
      rw [lookup_cons]
      by_cases hk : k = k1
      · simp [hk]
      · simp [hk, ih]

theorem lookup_eq_none_iff (d : List (α × β)) (k : α) :
    d.lookup k = .none ↔ k ∉ d.map Prod.fst := by
  rw [← lookup_isSome_iff, ← Option.not_isSome_iff_eq_none]

theorem lookup_some_mem {d : List (α × β)} {k : α} {b : β}
    (h : d.lookup k = .some b) : (k, b) ∈ d := by
  induction d with
  | nil => simp [List.lookup] at h
  | cons kv rest ih =>
      obtain ⟨k1, b1⟩ := kv
      rw [lookup_cons] at h
      by_cases hk : k = k1
      · rw [if_pos hk] at h
        cases h
        subst hk
        exact List.mem_cons_self _ _
      · rw [if_neg hk] at h
        exact List.mem_cons_of_mem _ (ih h)

theorem mem_lookup_of_nodupKeys {d : List (α × β)}
    (hnd : (d.map Prod.fst).Nodup) {kv : α × β} (h : kv ∈ d) :
    d.lookup kv.1 = .some kv.2 := by
  induction d with
  | nil => simp at h
  | cons kv1 rest ih =>
      obtain ⟨k1, b1⟩ := kv1
      simp only [List.map_cons, List.nodup_cons] at hnd
      rcases List.mem_cons.1 h with h1 | h1
      · subst h1
        rw [lookup_cons, if_pos rfl]
      · rw [lookup_cons]
        have : kv.1 ≠ k1 := by
          intro heq
          exact hnd.1 (heq ▸ List.mem_map_of_mem Prod.fst h1)
        rw [if_neg this]
        exact ih hnd.2 h1

theorem lookup_update (d : List (α × β)) (k k' : α) (f : β → β) :
    (d.map (fun kv => if kv.1 = k then (kv.1, f kv.2) else kv)).lookup k'
      = if k' = k then (d.lookup k).map f else d.lookup k' := by
  induction d with
  | nil => simp [List.lookup]
  | cons kv rest ih =>
      obtain ⟨k1, b1⟩ := kv
      simp only [List.map_cons]
      by_cases h1 : k1 = k
      · subst h1
        rw [if_pos rfl]
        by_cases h2 : k' = k1
        · subst h2; simp [lookup_cons]
        · rw [lookup_cons, if_neg h2, ih, if_neg h2, if_neg h2, lookup_cons,
            if_neg h2]
      · rw [if_neg h1]
        by_cases h2 : k' = k1
        · have h3 : k' ≠ k := fun hk => h1 (h2.symm.trans hk)
          rw [lookup_cons, if_pos h2, if_neg h3, lookup_cons, if_pos h2]
        · rw [lookup_cons, if_neg h2, ih]
          by_cases h3 : k' = k
          · subst h3
            have h4 : k' ≠ k1 := h2
            rw [if_pos rfl, if_pos rfl, lookup_cons, if_neg h4]
          · rw [if_neg h3, if_neg h3, lookup_cons, if_neg h2]

theorem keys_update (d : List (α × β)) (k : α) (f : β → β) :
    (d.map (fun kv => if kv.1 = k then (kv.1, f kv.2) else kv)).map Prod.fst
      = d.map Prod.fst := by
  induction d with
  | nil => simp
  | cons kv rest ih =>
      obtain ⟨k1, b1⟩ := kv
      simp only [List.map_cons]
      by_cases h1 : k1 = k <;> simp [h1, ih]

theorem keys_upsert (d : List (α × β)) (k : α) (f : β → β) (init : β) :
    (upsert d k f init).map Prod.fst =
      if (d.lookup k).isSome then d.map Prod.fst
      else d.map Prod.fst ++ [k] := by
  unfold upsert
  split <;> rename_i h
  · exact keys_update d k f
  · simp

theorem keysNodup_upsert {d : List (α × β)} (k : α) (f : β → β) (init : β)
    (hnd : (d.map Prod.fst).Nodup) :
    ((upsert d k f init).map Prod.fst).Nodup := by
  rw [keys_upsert]
  split <;> rename_i h
  · exact hnd
  · rw [Option.not_isSome_iff_eq_none, lookup_eq_none_iff] at h
    simp [List.nodup_append, hnd, h]

theorem lookup_upsert_self (d : List (α × β)) (k : α) (f : β → β) (init : β) :
    (upsert d k f init).lookup k = .some (((d.lookup k).map f).getD init) := by
  unfold upsert
  split <;> rename_i h
  · rw [lookup_update, if_pos rfl]
    rcases Option.isSome_iff_exists.1 h with ⟨b, hb⟩
    rw [hb]
    rfl
  · rw [Option.not_isSome_iff_eq_none] at h
    rw [lookup_append_right h, h, lookup_cons, if_pos rfl]
    rfl

theorem lookup_upsert_other (d : List (α × β)) {k k' : α} (f : β → β)
    (init : β) (h : k' ≠ k) :
    (upsert d k f init).lookup k' = d.lookup k' := by
  unfold upsert
  split <;> rename_i hs
  · rw [lookup_update, if_neg h]
  · cases hl : d.lookup k' with
    | some b => rw [lookup_append_left (by rw [hl]; rfl), hl]
    | none => rw [lookup_append_right hl, lookup_cons, if_neg h]; rfl

theorem upsert_ne_nil (d : List (α × β)) (k : α) (f : β → β) (init : β) :
    upsert d k f init ≠ [] := by
  unfold upsert
  split <;> rename_i h
  · intro he
    rw [List.map_eq_nil_iff] at he
    subst he
    simp [List.lookup] at h
  · simp

theorem mem_upsert {d : List (α × β)} {k : α} {f : β → β} {init : β}
    {P : α × β → Prop} (hd : ∀ kv ∈ d, P kv)
    (hf : ∀ kv ∈ d, P kv → P (kv.1, f kv.2)) (hi : P (k, init)) :
    ∀ kv ∈ upsert d k f init, P kv := by
  unfold upsert
  split
  · intro kv hkv
    rcases List.mem_map.1 hkv with ⟨kv0, h0, heq⟩
    by_cases hk : kv0.1 = k
    · rw [if_pos hk] at heq
      subst heq
      exact hf kv0 h0 (hd kv0 h0)
    · rw [if_neg hk] at heq
      subst heq
      exact hd kv0 h0
  · intro kv hkv
    rcases List.mem_append.1 hkv with h1 | h1
    · exact hd kv h1
    · simp at h1
      subst h1
      exact hi

end Dict

theorem bump_ne_nil (d : List (String × Nat)) (k : String) : bump d k ≠ [] :=
  upsert_ne_nil d k _ _

theorem mem_bump_pos (d : List (String × Nat)) (k : String)
    (h : ∀ kv ∈ d, 0 < kv.2) : ∀ kv ∈ bump d k, 0 < kv.2 :=
  mem_upsert h (fun kv _ _ => Nat.succ_pos kv.2) (Nat.succ_pos 0)

theorem countkeys_fold_pos (l : List Entity) :
    ∀ d, (∀ kv ∈ d, 0 < kv.2) →
      ∀ kv ∈ l.foldl (fun d e => bump d e.key) d, 0 < kv.2 := by
  induction l with
  | nil => intro d h kv hkv; exact h kv hkv
  | cons e rest ih =>
      intro d h kv hkv
      exact ih (bump d e.key) (mem_bump_pos d e.key h) kv hkv

theorem countkeys_pos (ents : List Entity) :
    ∀ kv ∈ countkeys ents, 0 < kv.2 :=
  countkeys_fold_pos ents [] (by simp)

theorem countkeys_fold_ne_nil (l : List Entity) :
    ∀ d, d ≠ [] → l.foldl (fun d e => bump d e.key) d ≠ [] := by
  induction l with
  | nil => intro d h; exact h
  | cons e rest ih => intro d _; exact ih (bump d e.key) (bump_ne_nil d e.key)

theorem countkeys_ne_nil {ents : List Entity} (h : ents ≠ []) :
    countkeys ents ≠ [] := by
  match ents, h with
  | e :: rest, _ =>
      show (e :: rest).foldl (fun d e => bump d e.key) [] ≠ []
      rw [List.foldl_cons]
      exact countkeys_fold_ne_nil rest (bump [] e.key) (bump_ne_nil [] e.key)

/-! ### Entropy -/

theorem calcetp_of_pos {values : List Nat} (h1 : values ≠ [])
    (h2 : ∀ v ∈ values, 0 < v) : calcetp values = .some (calcetpR values) := by
  unfold calcetp
  rw [if_pos ⟨h1, h2⟩]

theorem calcetpR_nonneg (values : List Nat) : 0 ≤ calcetpR values := by
  unfold calcetpR
  apply div_nonneg _ (by positivity)
  apply List.sum_nonneg
  intro x hx
  rcases List.mem_map.1 hx with ⟨v, hv, rfl⟩
  rcases Nat.eq_zero_or_pos v with h0 | h0
  · subst h0; simp
  · apply mul_nonneg (by positivity)
    apply Real.logb_nonneg (by norm_num)
    rw [le_div_iff₀ (by exact_mod_cast h0), one_mul]
    have : v ≤ values.sum := by
      rcases List.append_of_mem hv with ⟨s, t, rfl⟩
      simp
      omega
    exact_mod_cast this

theorem entetpR_nonneg (ents : List Entity) : 0 ≤ entetpR ents :=
  calcetpR_nonneg _

theorem calcetpR_single (n : Nat) : calcetpR [n] = 0 := by
  unfold calcetpR
  rcases Nat.eq_zero_or_pos n with h0 | h0
  · subst h0; simp
  · have hn : ((n : ℝ)) ≠ 0 := by exact_mod_cast h0.ne'
    simp [div_self hn]

theorem bestkey_fold_isSome (l : List (String × Nat))
    (acc : Option (String × Nat)) (h : acc.isSome) :
    (l.foldl (fun best kv =>
      match best with
      | Option.none => .some kv
      | .some mkv => if mkv.2 < kv.2 then .some kv else .some mkv) acc).isSome := by
  induction l generalizing acc with
  | nil => exact h
  | cons kv rest ih =>
      rw [List.foldl_cons]
      apply ih
      rcases Option.isSome_iff_exists.1 h with ⟨mkv, hm⟩
      subst hm
      split
      · rfl
      · split <;> rfl

theorem bestkey_isSome {keys : List (String × Nat)} (h : keys ≠ []) :
    (bestkey keys).isSome := by
  match keys, h with
  | kv :: rest, _ =>
      unfold bestkey
      rw [Option.isSome_map']
      rw [List.foldl_cons]
      exact bestkey_fold_isSome rest (.some kv) rfl

theorem length_filter_lt {γ : Type} {l : List γ} {p : γ → Bool} {e : γ}
    (he : e ∈ l) (hp : ¬ p e) : (l.filter p).length < l.length := by
  induction l with
  | nil => simp at he
  | cons a rest ih =>
      rcases List.mem_cons.1 he with h1 | h1
      · subst h1
        rw [List.filter_cons_of_neg (by simpa using hp)]
        exact Nat.lt_succ_of_le (List.length_filter_le p rest)
      · by_cases hpa : p a
        · rw [List.filter_cons_of_pos hpa]
          exact Nat.succ_lt_succ (ih h1)
        · rw [List.filter_cons_of_neg (by simpa using hpa)]
          exact Nat.lt_succ_of_lt (ih h1)

/-! ### The discrete grouping dictionary -/

theorem dfgroups_fold_lookup (g : Entity → PyVal) (l : List Entity) :
    ∀ (pre : List Entity) (d : List (PyVal × List Entity)),
    (∀ k, d.lookup k =
      if pre.filter (fun e => g e = k) = [] then Option.none
      else .some (pre.filter (fun e => g e = k))) →
    ∀ k, (l.foldl (fun d e => upsert d (g e) (· ++ [e]) [e]) d).lookup k =
      if (pre ++ l).filter (fun e => g e = k) = [] then Option.none
      else .some ((pre ++ l).filter (fun e => g e = k)) := by
  induction l with
  | nil => intro pre d h k; rw [List.append_nil]; exact h k
  | cons e rest ih =>
      intro pre d h k
      rw [List.foldl_cons]
      have hstep : ∀ k', (upsert d (g e) (· ++ [e]) [e]).lookup k' =
          if (pre ++ [e]).filter (fun e' => g e' = k') = [] then Option.none
          else .some ((pre ++ [e]).filter (fun e' => g e' = k')) := by
        intro k'
        by_cases hk : k' = g e
        · subst hk
          rw [lookup_upsert_self, h (g e), List.filter_append]
          have he : [e].filter (fun e' => g e' = g e) = [e] := by simp
          rw [he]
          split <;> rename_i hf
          · rw [hf]
            simp
          · simp [hf]
        · rw [lookup_upsert_other _ _ _ (fun hh => hk hh), h k',
            List.filter_append]
          have he : [e].filter (fun e' => g e' = k') = [] := by
            simp
            exact fun hh => hk hh.symm
          rw [he, List.append_nil]
      have := ih (pre ++ [e]) _ hstep k
      rwa [List.append_assoc, List.singleton_append] at this

theorem dfgroups_lookup (g : Entity → PyVal) (ents : List Entity) (k : PyVal) :
    (dfgroups g ents).lookup k =
      if ents.filter (fun e => g e = k) = [] then Option.none
      else .some (ents.filter (fun e => g e = k)) := by
  have := dfgroups_fold_lookup g ents [] []
    (by intro k'; simp [List.lookup]) k
  simpa using this

theorem dfgroups_keysNodup (g : Entity → PyVal) (ents : List Entity) :
    ((dfgroups g ents).map Prod.fst).Nodup := by
  suffices h : ∀ (l : List Entity) (d : List (PyVal × List Entity)),
      (d.map Prod.fst).Nodup →
      ((l.foldl (fun d e => upsert d (g e) (· ++ [e]) [e]) d).map Prod.fst).Nodup by
    exact h ents [] (by simp)
  intro l
  induction l with
  | nil => intro d h; exact h
  | cons e rest ih =>
      intro d h
      rw [List.foldl_cons]
      exact ih _ (keysNodup_upsert _ _ _ h)

theorem dfgroups_mem {g : Entity → PyVal} {ents : List Entity}
    {kv : PyVal × List Entity} (h : kv ∈ dfgroups g ents) :
    kv.2 = ents.filter (fun e => g e = kv.1) ∧ kv.2 ≠ [] := by
  have hl := mem_lookup_of_nodupKeys (dfgroups_keysNodup g ents) h
  rw [dfgroups_lookup] at hl
  split at hl
  · cases hl
  · rename_i hf
    have h2 := Option.some.inj hl
    refine ⟨h2.symm, ?_⟩
    rw [← h2]
    exact hf

theorem exists_ne_of_nodup_two {γ : Type} {l : List γ} (hnd : l.Nodup)
    (hlen : 2 ≤ l.length) (x : γ) : ∃ y ∈ l, y ≠ x := by
  match l, hlen with
  | y0 :: y1 :: tl, _ =>
      rcases List.nodup_cons.1 hnd with ⟨h0, _⟩
      by_cases hx : y0 = x
      · refine ⟨y1, by simp, ?_⟩
        intro h1
        exact h0 (by rw [hx, ← h1]; simp)
      · exact ⟨y0, by simp, hx⟩

theorem dfgroups_length_lt {g : Entity → PyVal} {ents : List Entity}
    {kv : PyVal × List Entity} (h : kv ∈ dfgroups g ents)
    (h2 : 2 ≤ (dfgroups g ents).length) : kv.2.length < ents.length := by
  have hkeys : 2 ≤ ((dfgroups g ents).map Prod.fst).length := by
    rw [List.length_map]; exact h2
  rcases exists_ne_of_nodup_two (dfgroups_keysNodup g ents) hkeys kv.1
    with ⟨k', hk1, hk2⟩
  rcases List.mem_map.1 hk1 with ⟨kv', hkv1, hkv2⟩
  rcases dfgroups_mem hkv1 with ⟨heq', hne'⟩
  have hex : ∃ e' ∈ ents, g e' = kv'.1 := by
    rcases List.exists_mem_of_ne_nil _ hne' with ⟨e', he'⟩
    rw [heq'] at he'
    rcases List.mem_filter.1 he' with ⟨hm, hp⟩
    exact ⟨e', hm, by simpa using hp⟩
  rcases hex with ⟨e', he1, he2⟩
  rcases dfgroups_mem h with ⟨heq, _⟩
  rw [heq]
  apply length_filter_lt he1
  simp only [decide_eq_true_eq]
  rw [he2, hkv2]
  exact fun hh => hk2 hh

/-! ### `DiscreteFeature.split` -/

theorem dfsplit_eq (g : Entity → PyVal) (ents : List Entity) :
    dfsplit g ents =
      if ents.length < 2 then .error .assertErr
      else if (dfgroups g ents).length < 2 then .error .invalidSplit
      else .ok ((((dfgroups g ents).map
          (fun kv => (kv.2.length : ℝ) * entetpR kv.2)).sum) /
          (ents.length : ℝ), .none, dfgroups g ents) := rfl

theorem dfsplit_assert {g : Entity → PyVal} {ents : List Entity}
    (h : ents.length < 2) : dfsplit g ents = .error .assertErr := by
  rw [dfsplit_eq, if_pos h]

theorem dfsplit_error {g : Entity → PyVal} {ents : List Entity} {err : Err}
    (h2 : 2 ≤ ents.length) (h : dfsplit g ents = .error err) :
    err = .invalidSplit := by
  rw [dfsplit_eq, if_neg (by omega)] at h
  split at h
  · cases h; rfl
  · cases h

theorem dfsplit_ok {g : Entity → PyVal} {ents : List Entity} {etp : ℝ}
    {arg : PyVal} {sp : List (PyVal × List Entity)}
    (h : dfsplit g ents = .ok (etp, arg, sp)) :
    2 ≤ ents.length ∧ arg = .none ∧ sp = dfgroups g ents ∧ 2 ≤ sp.length := by
  rw [dfsplit_eq] at h
  split at h
  · cases h
  · split at h
    · cases h
    · rename_i h1 h2
      cases h
      exact ⟨by omega, rfl, rfl, by omega⟩

/-! ### The membership token dictionary -/

theorem mfg_inner (g : Entity → List String) (e : Entity) (pre : List Entity)
    (ts : List String) :
    ∀ (d : List (String × List Entity)) (done : List String),
    (∀ tok, (d.lookup tok = .none → (∀ e' ∈ pre, tok ∉ g e') ∧ tok ∉ done) ∧
      (∀ es, d.lookup tok = .some es → es.Nodup ∧ es ≠ [] ∧
        (∀ e', e' ∈ es ↔ ((e' ∈ pre ∧ tok ∈ g e') ∨ (e' = e ∧ tok ∈ done))))) →
    ∀ tok,
      ((ts.foldl (fun d' v =>
          upsert d' v (fun es => if e ∈ es then es else es ++ [e]) [e]) d).lookup
            tok = .none →
        (∀ e' ∈ pre, tok ∉ g e') ∧ tok ∉ done ++ ts) ∧
      (∀ es, (ts.foldl (fun d' v =>
          upsert d' v (fun es => if e ∈ es then es else es ++ [e]) [e]) d).lookup
            tok = .some es → es.Nodup ∧ es ≠ [] ∧
        (∀ e', e' ∈ es ↔ ((e' ∈ pre ∧ tok ∈ g e') ∨
          (e' = e ∧ tok ∈ done ++ ts)))) := by
  induction ts with
  | nil =>
      intro d done h tok
      rw [List.foldl_nil, List.append_nil]
      exact h tok
  | cons t rest ih =>
      intro d done h tok
      rw [List.foldl_cons]
      have hstep : ∀ tok',
          ((upsert d t (fun es => if e ∈ es then es else es ++ [e]) [e]).lookup
              tok' = .none →
            (∀ e' ∈ pre, tok' ∉ g e') ∧ tok' ∉ done ++ [t]) ∧
          (∀ es, (upsert d t (fun es => if e ∈ es then es else es ++ [e])
              [e]).lookup tok' = .some es → es.Nodup ∧ es ≠ [] ∧
            (∀ e', e' ∈ es ↔ ((e' ∈ pre ∧ tok' ∈ g e') ∨
              (e' = e ∧ tok' ∈ done ++ [t])))) := by
        intro tok'
        by_cases htok : tok' = t
        · subst htok
          rw [lookup_upsert_self]
          constructor
          · intro hnone; cases hnone
          · intro es hes
            have hes' := Option.some.inj hes
            cases hd : d.lookup tok' with
            | none =>
                rw [hd] at hes'
                simp only [Option.map_none', Option.getD_none] at hes'
                subst hes'
                refine ⟨by simp, by simp, ?_⟩
                intro e'
                constructor
                · intro he'
                  simp at he'
                  exact Or.inr ⟨he', by simp⟩
                · intro he'
                  rcases he' with ⟨hp, hg⟩ | ⟨heq, _⟩
                  · exact absurd hg (((h tok').1 hd).1 e' hp)
                  · simp [heq]
            | some es0 =>
                rw [hd] at hes'
                simp only [Option.map_some', Option.getD_some] at hes'
                rcases (h tok').2 es0 hd with ⟨hnd, hne, hmem⟩
                subst hes'
                by_cases hin : e ∈ es0
                · rw [if_pos hin]
                  refine ⟨hnd, hne, ?_⟩
                  intro e'
                  rw [hmem e']
                  constructor
                  · rintro (hl | ⟨heq, hdone⟩)
                    · exact Or.inl hl
                    · exact Or.inr ⟨heq, by simp [hdone]⟩
                  · rintro (hl | ⟨heq, _⟩)
                    · exact Or.inl hl
                    · subst heq
                      rw [← hmem e']
                      exact hin
                · rw [if_neg hin]
                  refine ⟨?_, by simp, ?_⟩
                  · apply hnd.append (by simp)
                    intro x hx1 hx2
                    simp at hx2
                    subst hx2
                    exact hin hx1
                  · intro e'
                    rw [List.mem_append]
                    constructor
                    · rintro (hl | hr)
                      · rcases (hmem e').1 hl with hll | ⟨heq, hdone⟩
                        · exact Or.inl hll
                        · exact Or.inr ⟨heq, by simp [hdone]⟩
                      · simp at hr
                        exact Or.inr ⟨hr, by simp⟩
                    · rintro (hl | ⟨heq, _⟩)
                      · exact Or.inl ((hmem e').2 (Or.inl hl))
                      · subst heq
                        simp
        · rw [lookup_upsert_other _ _ _ htok]
          constructor
          · intro hnone
            rcases (h tok').1 hnone with ⟨hpre, hdone⟩
            refine ⟨hpre, ?_⟩
            rw [List.mem_append]
            rintro (hd | hd)
            · exact hdone hd
            · simp at hd
              exact htok hd
          · intro es hes
            rcases (h tok').2 es hes with ⟨hnd, hne, hmem⟩
            refine ⟨hnd, hne, ?_⟩
            intro e'
            rw [hmem e']
            constructor
            · rintro (hl | ⟨heq, hdone⟩)
              · exact Or.inl hl
              · exact Or.inr ⟨heq, by rw [List.mem_append]; exact Or.inl hdone⟩
            · rintro (hl | ⟨heq, hdone⟩)
              · exact Or.inl hl
              · rw [List.mem_append] at hdone
                rcases hdone with hd | hd
                · exact Or.inr ⟨heq, hd⟩
                · simp at hd
                  exact absurd hd htok
      have := ih _ (done ++ [t]) hstep tok
      rwa [List.append_assoc, List.singleton_append] at this

theorem mfgroups_fold_char (g : Entity → List String) (l : List Entity) :
    ∀ (pre : List Entity) (d : List (String × List Entity)),
    (∀ tok, (d.lookup tok = .none → ∀ e' ∈ pre, tok ∉ g e') ∧
      (∀ es, d.lookup tok = .some es → es.Nodup ∧ es ≠ [] ∧
        (∀ e', e' ∈ es ↔ (e' ∈ pre ∧ tok ∈ g e')))) →
    ∀ tok,
      ((l.foldl (fun d e => (g e).foldl (fun d' v =>
          upsert d' v (fun es => if e ∈ es then es else es ++ [e]) [e]) d)
        d).lookup tok = .none → ∀ e' ∈ pre ++ l, tok ∉ g e') ∧
      (∀ es, (l.foldl (fun d e => (g e).foldl (fun d' v =>
          upsert d' v (fun es => if e ∈ es then es else es ++ [e]) [e]) d)
        d).lookup tok = .some es → es.Nodup ∧ es ≠ [] ∧
        (∀ e', e' ∈ es ↔ (e' ∈ pre ++ l ∧ tok ∈ g e'))) := by
  induction l with
  | nil =>
      intro pre d h tok
      rw [List.foldl_nil, List.append_nil]
      exact h tok
  | cons e rest ih =>
      intro pre d h tok
      rw [List.foldl_cons]
      have hin : ∀ tok', (d.lookup tok' = .none →
            (∀ e' ∈ pre, tok' ∉ g e') ∧ tok' ∉ ([] : List String)) ∧
          (∀ es, d.lookup tok' = .some es → es.Nodup ∧ es ≠ [] ∧
            (∀ e', e' ∈ es ↔ ((e' ∈ pre ∧ tok' ∈ g e') ∨
              (e' = e ∧ tok' ∈ ([] : List String))))) := by
        intro tok'
        refine ⟨fun hn => ⟨(h tok').1 hn, by simp⟩, fun es hs => ?_⟩
        rcases (h tok').2 es hs with ⟨hnd, hne, hmem⟩
        refine ⟨hnd, hne, fun e' => ?_⟩
        rw [hmem e']
        constructor
        · exact fun hh => Or.inl hh
        · rintro (hh | ⟨_, hh⟩)
          · exact hh
          · simp at hh
      have hout := mfg_inner g e pre (g e) d [] hin
      have hstep : ∀ tok',
          (((g e).foldl (fun d' v =>
              upsert d' v (fun es => if e ∈ es then es else es ++ [e]) [e])
            d).lookup tok' = .none → ∀ e' ∈ pre ++ [e], tok' ∉ g e') ∧
          (∀ es, ((g e).foldl (fun d' v =>
              upsert d' v (fun es => if e ∈ es then es else es ++ [e]) [e])
            d).lookup tok' = .some es → es.Nodup ∧ es ≠ [] ∧
            (∀ e', e' ∈ es ↔ (e' ∈ pre ++ [e] ∧ tok' ∈ g e'))) := by
        intro tok'
        constructor
        · intro hn
          rcases (hout tok').1 hn with ⟨hpre, hni⟩
          simp only [List.nil_append] at hni
          intro e' he'
          rcases List.mem_append.1 he' with hp | hp
          · exact hpre e' hp
          · simp at hp
            subst hp
            exact hni
        · intro es hs
          rcases (hout tok').2 es hs with ⟨hnd, hne, hmem⟩
          refine ⟨hnd, hne, fun e' => ?_⟩
          rw [hmem e']
          simp only [List.nil_append]
          constructor
          · rintro (⟨hp, hg⟩ | ⟨heq, hg⟩)
            · exact ⟨List.mem_append.2 (Or.inl hp), hg⟩
            · subst heq
              exact ⟨List.mem_append.2 (Or.inr (by simp)), hg⟩
          · rintro ⟨hp, hg⟩
            rcases List.mem_append.1 hp with hp' | hp'
            · exact Or.inl ⟨hp', hg⟩
            · simp at hp'
              subst hp'
              exact Or.inr ⟨rfl, hg⟩
      have := ih (pre ++ [e]) _ hstep tok
      rwa [List.append_assoc, List.singleton_append] at this

theorem mfgroups_none {g : Entity → List String} {ents : List Entity}
    {tok : String} (h : (mfgroups g ents).lookup tok = .none) :
    ∀ e ∈ ents, tok ∉ g e := by
  have := (mfgroups_fold_char g ents [] []
    (by intro tok'; constructor
        · intro _; simp
        · intro es hs; simp [List.lookup] at hs) tok).1 h
  simpa using this

theorem mfgroups_some {g : Entity → List String} {ents : List Entity}
    {tok : String} {es : List Entity}
    (h : (mfgroups g ents).lookup tok = .some es) :
    es.Nodup ∧ es ≠ [] ∧ (∀ e, e ∈ es ↔ (e ∈ ents ∧ tok ∈ g e)) := by
  have := (mfgroups_fold_char g ents [] []
    (by intro tok'; constructor
        · intro _; simp
        · intro es' hs; simp [List.lookup] at hs) tok).2 es h
  simpa using this

theorem mfgroups_keysNodup (g : Entity → List String) (ents : List Entity) :
    ((mfgroups g ents).map Prod.fst).Nodup := by
  suffices h : ∀ (l : List Entity) (d : List (String × List Entity)),
      (d.map Prod.fst).Nodup →
      ((l.foldl (fun d e => (g e).foldl (fun d' v =>
          upsert d' v (fun es => if e ∈ es then es else es ++ [e]) [e]) d)
        d).map Prod.fst).Nodup by
    exact h ents [] (by simp)
  intro l
  induction l with
  | nil => intro d h; exact h
  | cons e rest ih =>
      intro d h
      rw [List.foldl_cons]
      apply ih
      suffices hi : ∀ (ts : List String) (d' : List (String × List Entity)),
          (d'.map Prod.fst).Nodup →
          ((ts.foldl (fun d' v =>
            upsert d' v (fun es => if e ∈ es then es else es ++ [e]) [e])
            d').map Prod.fst).Nodup by
        exact hi (g e) d h
      intro ts
      induction ts with
      | nil => intro d' h'; exact h'
      | cons t rest' ih' =>
          intro d' h'
          rw [List.foldl_cons]
          exact ih' _ (keysNodup_upsert _ _ _ h')

theorem mfgroups_mem {g : Entity → List String} {ents : List Entity}
    {kv : String × List Entity} (h : kv ∈ mfgroups g ents) :
    kv.2.Nodup ∧ kv.2 ≠ [] ∧ (∀ e, e ∈ kv.2 ↔ (e ∈ ents ∧ kv.1 ∈ g e)) :=
  mfgroups_some (mem_lookup_of_nodupKeys (mfgroups_keysNodup g ents) h)

/-! ### `MembershipFeature.split` -/

theorem mfscan_inv (ents : List Entity) (n : ℝ)
    (d : List (String × List Entity)) :
    ∀ (gs : List (String × List Entity))
      (best : Option (ℝ × String × List Entity × List Entity)),
    gs ⊆ d →
    (∀ etp v es nes, best = .some (etp, v, es, nes) →
      (v, es) ∈ d ∧ nes = ents.filter (fun e => e ∉ es) ∧ nes ≠ []) →
    ∀ etp v es nes, mfscan ents n gs best = .some (etp, v, es, nes) →
      (v, es) ∈ d ∧ nes = ents.filter (fun e => e ∉ es) ∧ nes ≠ [] := by
  intro gs
  induction gs with
  | nil =>
      intro best _ hb etp v es nes hr
      rw [mfscan] at hr
      exact hb etp v es nes hr
  | cons kv rest ih =>
      intro best hsub hb etp v es nes hr
      obtain ⟨v0, es0⟩ := kv
      rw [mfscan] at hr
      have hsub' : rest ⊆ d := fun x hx => hsub (List.mem_cons_of_mem _ hx)
      have hhead : (v0, es0) ∈ d := hsub (List.mem_cons_self _ _)
      split at hr
      · exact ih best hsub' hb etp v es nes hr
      · rename_i hne
        split at hr
        · exact ih _ hsub'
            (by rintro etp' v' es' nes' heq
                cases heq
                exact ⟨hhead, rfl, hne⟩) etp v es nes hr
        · rename_i b
          simp only [] at hr
          split at hr
          · exact ih _ hsub'
              (by rintro etp' v' es' nes' heq
                  cases heq
                  exact ⟨hhead, rfl, hne⟩) etp v es nes hr
          · exact ih _ hsub'
              (by rintro etp' v' es' nes' heq
                  cases heq
                  exact hb _ _ _ _ rfl) etp v es nes hr

theorem mfsplit_eq (g : Entity → List String) (ents : List Entity) :
    mfsplit g ents =
      if ents.length < 2 then .error .assertErr
      else if (mfgroups g ents).length < 2 then .error .invalidSplit
      else
        match mfscan ents (ents.length : ℝ) (mfgroups g ents) .none with
        | .none => .error .invalidSplit
        | .some (minetp, v, es, nes) =>
            .ok (minetp, .str v, [(.bool true, es), (.bool false, nes)]) := rfl

theorem mfsplit_assert {g : Entity → List String} {ents : List Entity}
    (h : ents.length < 2) : mfsplit g ents = .error .assertErr := by
  rw [mfsplit_eq, if_pos h]

theorem mfsplit_error {g : Entity → List String} {ents : List Entity}
    {err : Err} (h2 : 2 ≤ ents.length) (h : mfsplit g ents = .error err) :
    err = .invalidSplit := by
  rw [mfsplit_eq, if_neg (by omega)] at h
  split at h
  · cases h; rfl
  · split at h
    · cases h; rfl
    · cases h

theorem mfsplit_ok {g : Entity → List String} {ents : List Entity} {etp : ℝ}
    {arg : PyVal} {sp : List (PyVal × List Entity)}
    (h : mfsplit g ents = .ok (etp, arg, sp)) :
    2 ≤ ents.length ∧ ∃ tok es nes, arg = .str tok ∧
      sp = [(.bool true, es), (.bool false, nes)] ∧
      (tok, es) ∈ mfgroups g ents ∧
      nes = ents.filter (fun e => e ∉ es) ∧ nes ≠ [] := by
  rw [mfsplit_eq] at h
  split at h
  · cases h
  · rename_i h1
    split at h
    · cases h
    · split at h
      · cases h
      · rename_i minetp v es nes hscan
        cases h
        rcases mfscan_inv ents (ents.length : ℝ) (mfgroups g ents)
          (mfgroups g ents) .none (fun x hx => hx) (by intro _ _ _ _ h'; cases h')
          _ _ _ _ hscan with ⟨hmem, hnes, hne⟩
        exact ⟨by omega, v, es, nes, rfl, rfl, hmem, hnes, hne⟩

/-! ### `QuantitativeFeature.split` -/

theorem qfstep_skip (es : List Entity) (vs : List Int) (n : Nat)
    (st : Int × Option (ℝ × Nat)) (i : Nat) (h : st.1 = vs.getD i 0) :
    qfstep es vs n st i = st := by
  simp only [qfstep]
  rw [if_pos h]

theorem qfstep_cand (es : List Entity) (vs : List Int) (n : Nat)
    (st : Int × Option (ℝ × Nat)) (i : Nat) (h : ¬ st.1 = vs.getD i 0) :
    qfstep es vs n st i =
      (vs.getD i 0,
        match st.2 with
        | .none => .some (cutEtp es n i, i)
        | .some b => if cutEtp es n i < b.1 then .some (cutEtp es n i, i)
                     else .some b) := by
  obtain ⟨v0, b⟩ := st
  simp only [qfstep]
  rw [if_neg h]
  cases b with
  | none => rfl
  | some b' => by_cases hlt : cutEtp es n i < b'.1 <;> simp [hlt]

theorem qfstep_cand_none (es : List Entity) (vs : List Int) (n : Nat)
    (st : Int × Option (ℝ × Nat)) (i : Nat) (h : ¬ st.1 = vs.getD i 0)
    (hb : st.2 = .none) :
    qfstep es vs n st i = (vs.getD i 0, .some (cutEtp es n i, i)) := by
  rw [qfstep_cand es vs n st i h, hb]

theorem qfstep_cand_some (es : List Entity) (vs : List Int) (n : Nat)
    (st : Int × Option (ℝ × Nat)) (i : Nat) {b : ℝ × Nat}
    (h : ¬ st.1 = vs.getD i 0) (hb : st.2 = .some b) :
    qfstep es vs n st i =
      (vs.getD i 0, if cutEtp es n i < b.1 then .some (cutEtp es n i, i)
        else .some b) := by
  rw [qfstep_cand es vs n st i h, hb]

theorem qfscan_fold_inv (es : List Entity) (vs : List Int) (n : Nat) :
    ∀ (m s : Nat) (best : Option (ℝ × Nat)),
    1 ≤ s →
    (∀ etp i, best = .some (etp, i) → 1 ≤ i ∧ i < s ∧
      vs.getD (i-1) 0 ≠ vs.getD i 0 ∧ etp = cutEtp es n i ∧
      (∀ j, 1 ≤ j → j < s → vs.getD (j-1) 0 ≠ vs.getD j 0 →
        etp ≤ cutEtp es n j)) →
    (best = .none → ∀ j, 1 ≤ j → j < s → vs.getD (j-1) 0 = vs.getD j 0) →
    ∀ etp i, ((List.range' s m).foldl (qfstep es vs n)
        (vs.getD (s-1) 0, best)).2 = .some (etp, i) →
      1 ≤ i ∧ i < s + m ∧ vs.getD (i-1) 0 ≠ vs.getD i 0 ∧
      etp = cutEtp es n i ∧
      (∀ j, 1 ≤ j → j < s + m → vs.getD (j-1) 0 ≠ vs.getD j 0 →
        etp ≤ cutEtp es n j) := by
  intro m
  induction m with
  | zero =>
      intro s best hs hsome _ etp i hr
      simp only [List.range', List.foldl_nil] at hr
      simpa using hsome etp i hr
  | succ m ih =>
      intro s best hs hsome hnone etp i hr
      simp only [List.range', List.foldl_cons] at hr
      by_cases hv : vs.getD (s-1) 0 = vs.getD s 0
      · rw [qfstep_skip es vs n _ s hv] at hr
        have harith : (s + 1) - 1 = s := by omega
        rw [show ((vs.getD (s-1) 0, best) : Int × Option (ℝ × Nat))
            = (vs.getD ((s+1)-1) 0, best) from by rw [harith, hv]] at hr
        have hres := ih (s+1) best (by omega)
          (by intro etp' i' hbi
              rcases hsome etp' i' hbi with ⟨h1, h2, h3, h4, h5⟩
              refine ⟨h1, by omega, h3, h4, ?_⟩
              intro j hj1 hj2 hj3
              rcases Nat.lt_succ_iff_lt_or_eq.1 hj2 with hj | hj
              · exact h5 j hj1 hj hj3
              · subst hj
                exact absurd hv hj3)
          (by intro hbn j hj1 hj2
              rcases Nat.lt_succ_iff_lt_or_eq.1 hj2 with hj | hj
              · exact hnone hbn j hj1 hj
              · subst hj
                exact hv)
          etp i hr
        have harith2 : s + 1 + m = s + (m + 1) := by omega
        rw [harith2] at hres
        exact hres
      · have hprev : ∀ (b' : Option (ℝ × Nat)),
            (∀ etp' i', b' = .some (etp', i') → 1 ≤ i' ∧ i' < s + 1 ∧
              vs.getD (i'-1) 0 ≠ vs.getD i' 0 ∧ etp' = cutEtp es n i' ∧
              (∀ j, 1 ≤ j → j < s + 1 → vs.getD (j-1) 0 ≠ vs.getD j 0 →
                etp' ≤ cutEtp es n j)) →
            (b' = .none → ∀ j, 1 ≤ j → j < s + 1 → vs.getD (j-1) 0 = vs.getD j 0) →
            ((List.range' (s+1) m).foldl (qfstep es vs n)
              (vs.getD s 0, b')).2 = .some (etp, i) →
            1 ≤ i ∧ i < s + (m + 1) ∧ vs.getD (i-1) 0 ≠ vs.getD i 0 ∧
            etp = cutEtp es n i ∧
            (∀ j, 1 ≤ j → j < s + (m + 1) → vs.getD (j-1) 0 ≠ vs.getD j 0 →
              etp ≤ cutEtp es n j) := by
          intro b' hbsome hbnone hr'
          have harith : (s + 1) - 1 = s := by omega
          rw [show vs.getD s 0 = vs.getD ((s+1)-1) 0 from by rw [harith]] at hr'
          have hres := ih (s+1) b' (by omega) hbsome hbnone etp i hr'
          have harith2 : s + 1 + m = s + (m + 1) := by omega
          rwa [harith2] at hres
        rcases hbv : best with _ | b
        · rw [qfstep_cand_none es vs n _ s hv hbv] at hr
          refine hprev (.some (cutEtp es n s, s)) ?_ (by intro h; cases h) hr
          intro etp' i' hbi
          cases hbi
          refine ⟨by omega, by omega, fun hh => hv hh, rfl, ?_⟩
          intro j hj1 hj2 hj3
          rcases Nat.lt_succ_iff_lt_or_eq.1 hj2 with hj | hj
          · exact absurd (hnone hbv j hj1 hj) hj3
          · subst hj
            exact le_refl _
        · rw [qfstep_cand_some es vs n _ s hv hbv] at hr
          rcases hsome b.1 b.2 (by rw [hbv]) with ⟨h1, h2, h3, h4, h5⟩
          by_cases hlt : cutEtp es n s < b.1
          · rw [if_pos hlt] at hr
            refine hprev _ ?_ (by intro h; cases h) hr
            intro etp' i' hbi
            cases hbi
            refine ⟨by omega, by omega, fun hh => hv hh, rfl, ?_⟩
            intro j hj1 hj2 hj3
            rcases Nat.lt_succ_iff_lt_or_eq.1 hj2 with hj | hj
            · exact le_trans (le_of_lt hlt) (h5 j hj1 hj hj3)
            · subst hj
              exact le_refl _
          · rw [if_neg hlt] at hr
            refine hprev _ ?_ (by intro h; cases h) hr
            intro etp' i' hbi
            cases hbi
            refine ⟨h1, by omega, h3, h4, ?_⟩
            intro j hj1 hj2 hj3
            rcases Nat.lt_succ_iff_lt_or_eq.1 hj2 with hj | hj
            · exact h5 j hj1 hj hj3
            · subst hj
              exact le_of_not_lt hlt

theorem qfscan_some {es : List Entity} {vs : List Int} {n : Nat} (hn : 1 ≤ n)
    {etp : ℝ} {m : Nat} (h : qfscan es vs n = .some (etp, m)) :
    1 ≤ m ∧ m < n ∧ vs.getD (m-1) 0 ≠ vs.getD m 0 ∧ etp = cutEtp es n m ∧
    (∀ j, 1 ≤ j → j < n → vs.getD (j-1) 0 ≠ vs.getD j 0 →
      etp ≤ cutEtp es n j) := by
  unfold qfscan at h
  have hres := qfscan_fold_inv es vs n (n-1) 1 .none (le_refl 1)
    (by intro _ _ hh; cases hh)
    (by intro _ j hj1 hj2; omega)
    etp m (by rw [show (1:ℕ) - 1 = 0 from rfl]; exact h)
  have harith : 1 + (n - 1) = n := by omega
  rwa [harith] at hres

theorem qfpairs0_mem {g : Entity → Option Int} {ents : List Entity}
    {p : Entity × Int} :
    p ∈ qfpairs0 g ents ↔ (p.1 ∈ ents ∧ g p.1 = .some p.2) := by
  unfold qfpairs0
  rw [List.mem_filterMap]
  constructor
  · rintro ⟨e, he, hp⟩
    cases hg : g e with
    | none => rw [hg] at hp; cases hp
    | some v =>
        rw [hg] at hp
        simp only [Option.map_some'] at hp
        cases hp
        exact ⟨he, hg⟩
  · rintro ⟨he, hg⟩
    exact ⟨p.1, he, by rw [hg]; rfl⟩

theorem qfpairs_mem {g : Entity → Option Int} {ents : List Entity}
    {p : Entity × Int} :
    p ∈ qfpairs g ents ↔ (p.1 ∈ ents ∧ g p.1 = .some p.2) := by
  unfold qfpairs
  rw [(List.perm_insertionSort pairLE (qfpairs0 g ents)).mem_iff]
  exact qfpairs0_mem

theorem qfpairs_sorted (g : Entity → Option Int) (ents : List Entity) :
    (qfpairs g ents).Pairwise pairLE :=
  List.sorted_insertionSort pairLE (qfpairs0 g ents)

theorem qfpairs_length_le (g : Entity → Option Int) (ents : List Entity) :
    (qfpairs g ents).length ≤ ents.length := by
  unfold qfpairs
  rw [(List.perm_insertionSort pairLE (qfpairs0 g ents)).length_eq]
  exact List.length_filterMap_le _ _

theorem qfsplit_eq (g : Entity → Option Int) (ents : List Entity) :
    qfsplit g ents =
      if ents.length < 2 then .error .assertErr
      else if qfpairs0 g ents = [] then .error .invalidSplit
      else
        match qfscan ((qfpairs g ents).map Prod.fst)
            ((qfpairs g ents).map Prod.snd) (qfpairs g ents).length with
        | .none => .error .invalidSplit
        | .some (minetp, m) =>
            .ok (minetp, .int (((qfpairs g ents).map Prod.snd).getD m 0),
              if qfundefs g ents = [] then
                [(PyVal.str "lt", ((qfpairs g ents).map Prod.fst).take m),
                 (PyVal.str "ge", ((qfpairs g ents).map Prod.fst).drop m)]
              else
                [(PyVal.str "lt", ((qfpairs g ents).map Prod.fst).take m),
                 (PyVal.str "ge", ((qfpairs g ents).map Prod.fst).drop m),
                 (PyVal.str "un", qfundefs g ents)]) := rfl

theorem qfsplit_assert {g : Entity → Option Int} {ents : List Entity}
    (h : ents.length < 2) : qfsplit g ents = .error .assertErr := by
  rw [qfsplit_eq, if_pos h]

theorem qfsplit_error {g : Entity → Option Int} {ents : List Entity}
    {err : Err} (h2 : 2 ≤ ents.length) (h : qfsplit g ents = .error err) :
    err = .invalidSplit := by
  rw [qfsplit_eq, if_neg (by omega)] at h
  split at h
  · cases h; rfl
  · split at h
    · cases h; rfl
    · cases h

theorem qfsplit_ok {g : Entity → Option Int} {ents : List Entity} {etp : ℝ}
    {arg : PyVal} {sp : List (PyVal × List Entity)}
    (h : qfsplit g ents = .ok (etp, arg, sp)) :
    2 ≤ ents.length ∧ qfpairs0 g ents ≠ [] ∧
    ∃ m, qfscan ((qfpairs g ents).map Prod.fst)
        ((qfpairs g ents).map Prod.snd) (qfpairs g ents).length
        = .some (etp, m) ∧
      arg = .int (((qfpairs g ents).map Prod.snd).getD m 0) ∧
      sp = (if qfundefs g ents = [] then
        [(PyVal.str "lt", ((qfpairs g ents).map Prod.fst).take m),
         (PyVal.str "ge", ((qfpairs g ents).map Prod.fst).drop m)]
      else
        [(PyVal.str "lt", ((qfpairs g ents).map Prod.fst).take m),
         (PyVal.str "ge", ((qfpairs g ents).map Prod.fst).drop m),
         (PyVal.str "un", qfundefs g ents)]) := by
  rw [qfsplit_eq] at h
  split at h
  · cases h
  · rename_i h1
    split at h
    · cases h
    · rename_i h2
      split at h
      · cases h
      · rename_i minetp m hscan
        cases h
        exact ⟨by omega, h2, m, hscan, rfl, rfl⟩

theorem qfsplit_parts {a : String} {ents : List Entity} {etp : ℝ}
    {arg : PyVal} {sp : List (PyVal × List Entity)}
    (h : qfsplit (qfGet a) ents = .ok (etp, arg, sp)) :
    ∀ p ∈ sp, (∀ e ∈ p.2, Feature.ident (.QF a) arg e = .some p.1) ∧
      p.2 ≠ [] ∧ p.2 ⊆ ents ∧ p.2.length < ents.length := by
  rcases qfsplit_ok h with ⟨hlen2, hp0, m, hscan, harg, hsp⟩
  have hPne : qfpairs (qfGet a) ents ≠ [] := by
    unfold qfpairs
    intro hnil
    have hperm : List.Perm (qfpairs0 (qfGet a) ents) [] := by
      rw [← hnil]
      exact (List.perm_insertionSort pairLE _).symm
    exact hp0 hperm.eq_nil
  have hPlen : 1 ≤ (qfpairs (qfGet a) ents).length :=
    Nat.one_le_iff_ne_zero.2 (fun h0 => hPne (List.length_eq_zero.1 h0))
  rcases qfscan_some hPlen hscan with ⟨hm1, hmn, hne, _, _⟩
  have hnlen : (qfpairs (qfGet a) ents).length ≤ ents.length :=
    qfpairs_length_le (qfGet a) ents
  have hpair : ∀ i j (hi : i < (qfpairs (qfGet a) ents).length)
      (hj : j < (qfpairs (qfGet a) ents).length), i < j →
      (qfpairs (qfGet a) ents)[i].2 ≤ (qfpairs (qfGet a) ents)[j].2 := by
    intro i j hi hj hij
    exact List.pairwise_iff_getElem.1 (qfpairs_sorted (qfGet a) ents) i j hi hj hij
  have hm1lt : m - 1 < (qfpairs (qfGet a) ents).length := by omega
  have hmlt : m < (qfpairs (qfGet a) ents).length := hmn
  have hgetD : ∀ (j : Nat) (hj : j < (qfpairs (qfGet a) ents).length),
      ((qfpairs (qfGet a) ents).map Prod.snd).getD j 0 =
        (qfpairs (qfGet a) ents)[j].2 := by
    intro j hj
    rw [List.getD_eq_getElem?_getD, List.getElem?_map,
      List.getElem?_eq_getElem hj]
    rfl
  have hm1m : (qfpairs (qfGet a) ents)[m-1].2 < (qfpairs (qfGet a) ents)[m].2 := by
    apply lt_of_le_of_ne
    · rcases Nat.lt_or_ge (m-1) m with hlt | hge
      · exact hpair _ _ hm1lt hmlt hlt
      · omega
    · intro heq
      apply hne
      rw [hgetD (m-1) hm1lt, hgetD m hmlt, heq]
  have hargw : arg = .int ((qfpairs (qfGet a) ents)[m].2) := by
    rw [harg, hgetD m hmlt]
  -- the three candidate partitions
  have hTakeMem : ∀ e ∈ ((qfpairs (qfGet a) ents).map Prod.fst).take m,
      ∃ i, ∃ hi : i < (qfpairs (qfGet a) ents).length, i < m ∧
        (qfpairs (qfGet a) ents)[i].1 = e := by
    intro e he
    rw [← List.map_take] at he
    rcases List.mem_map.1 he with ⟨q, hq, hq1⟩
    rcases List.mem_iff_getElem.1 hq with ⟨i, hi, hqi⟩
    have hilen : i < m := by
      have := hi
      rw [List.length_take] at this
      omega
    have hilen2 : i < (qfpairs (qfGet a) ents).length := by omega
    refine ⟨i, hilen2, hilen, ?_⟩
    rw [← hq1, ← hqi]
    congr 1
    exact (List.getElem_take _).symm
  have hDropMem : ∀ e ∈ ((qfpairs (qfGet a) ents).map Prod.fst).drop m,
      ∃ i, ∃ hi : i < (qfpairs (qfGet a) ents).length, m ≤ i ∧
        (qfpairs (qfGet a) ents)[i].1 = e := by
    intro e he
    rw [← List.map_drop] at he
    rcases List.mem_map.1 he with ⟨q, hq, hq1⟩
    rcases List.mem_iff_getElem.1 hq with ⟨i, hi, hqi⟩
    have hilen : m + i < (qfpairs (qfGet a) ents).length := by
      have := hi
      rw [List.length_drop] at this
      omega
    refine ⟨m + i, hilen, by omega, ?_⟩
    rw [← hq1, ← hqi]
    congr 1
    exact (List.getElem_drop _).symm
  have hval : ∀ (i : Nat) (hi : i < (qfpairs (qfGet a) ents).length),
      qfGet a ((qfpairs (qfGet a) ents)[i].1)
        = .some ((qfpairs (qfGet a) ents)[i].2) := by
    intro i hi
    exact (qfpairs_mem.1 (List.getElem_mem hi)).2
  have hmem_ents : ∀ (i : Nat) (hi : i < (qfpairs (qfGet a) ents).length),
      (qfpairs (qfGet a) ents)[i].1 ∈ ents := by
    intro i hi
    exact (qfpairs_mem.1 (List.getElem_mem hi)).1
  have hLt : ∀ e ∈ ((qfpairs (qfGet a) ents).map Prod.fst).take m,
      Feature.ident (.QF a) arg e = .some (.str "lt") := by
    intro e he
    rcases hTakeMem e he with ⟨i, hi, him, hie⟩
    have hvi : qfGet a e = .some ((qfpairs (qfGet a) ents)[i].2) := by
      rw [← hie]; exact hval i hi
    have hlt : (qfpairs (qfGet a) ents)[i].2 < (qfpairs (qfGet a) ents)[m].2 := by
      rcases Nat.lt_or_ge i (m-1) with hlti | hgei
      · exact lt_of_le_of_lt (hpair _ _ hi hm1lt hlti) hm1m
      · have heqi : i = m - 1 := by omega
        subst heqi
        exact hm1m
    rw [hargw]
    simp only [Feature.ident, hvi]
    rw [if_pos hlt]
  have hGe : ∀ e ∈ ((qfpairs (qfGet a) ents).map Prod.fst).drop m,
      Feature.ident (.QF a) arg e = .some (.str "ge") := by
    intro e he
    rcases hDropMem e he with ⟨i, hi, him, hie⟩
    have hvi : qfGet a e = .some ((qfpairs (qfGet a) ents)[i].2) := by
      rw [← hie]; exact hval i hi
    have hge : (qfpairs (qfGet a) ents)[m].2 ≤ (qfpairs (qfGet a) ents)[i].2 := by
      rcases Nat.lt_or_ge m i with hlti | hgei
      · exact hpair _ _ hmlt hi hlti
      · have heqi : i = m := by omega
        subst heqi
        exact le_refl _
    rw [hargw]
    simp only [Feature.ident, hvi]
    rw [if_neg (not_lt.2 hge)]
  have hUn : ∀ e ∈ qfundefs (qfGet a) ents,
      Feature.ident (.QF a) arg e = .some (.str "un") := by
    intro e he
    rcases List.mem_filter.1 he with ⟨_, hp⟩
    have : qfGet a e = .none := by simpa using hp
    simp only [Feature.ident, this]
  have hTakeSub : ((qfpairs (qfGet a) ents).map Prod.fst).take m ⊆ ents := by
    intro e he
    rcases hTakeMem e he with ⟨i, hi, _, hie⟩
    rw [← hie]
    exact hmem_ents i hi
  have hDropSub : ((qfpairs (qfGet a) ents).map Prod.fst).drop m ⊆ ents := by
    intro e he
    rcases hDropMem e he with ⟨i, hi, _, hie⟩
    rw [← hie]
    exact hmem_ents i hi
  have hTakeLen : (((qfpairs (qfGet a) ents).map Prod.fst).take m).length
      < ents.length := by
    rw [List.length_take, List.length_map]
    omega
  have hDropLen : (((qfpairs (qfGet a) ents).map Prod.fst).drop m).length
      < ents.length := by
    rw [List.length_drop, List.length_map]
    omega
  have hTakeNe : (((qfpairs (qfGet a) ents).map Prod.fst).take m) ≠ [] := by
    apply List.length_pos.1
    rw [List.length_take, List.length_map]
    omega
  have hDropNe : (((qfpairs (qfGet a) ents).map Prod.fst).drop m) ≠ [] := by
    apply List.length_pos.1
    rw [List.length_drop, List.length_map]
    omega
  have hUnSub : qfundefs (qfGet a) ents ⊆ ents := by
    intro x hx
    exact (List.mem_filter.1 hx).1
  have hUnLen : (qfundefs (qfGet a) ents).length < ents.length := by
    rcases List.exists_mem_of_ne_nil _ hp0 with ⟨q, hq⟩
    rcases qfpairs0_mem.1 hq with ⟨hq1, hq2⟩
    apply length_filter_lt hq1
    simp [hq2]
  intro p hp
  rw [hsp] at hp
  split at hp <;> rename_i hu
  · rcases List.mem_cons.1 hp with hp1 | hp1
    · subst hp1
      exact ⟨hLt, hTakeNe, hTakeSub, hTakeLen⟩
    · rcases List.mem_cons.1 hp1 with hp2 | hp2
      · subst hp2
        exact ⟨hGe, hDropNe, hDropSub, hDropLen⟩
      · simp at hp2
  · rcases List.mem_cons.1 hp with hp1 | hp1
    · subst hp1
      exact ⟨hLt, hTakeNe, hTakeSub, hTakeLen⟩
    · rcases List.mem_cons.1 hp1 with hp2 | hp2
      · subst hp2
        exact ⟨hGe, hDropNe, hDropSub, hDropLen⟩
      · rcases List.mem_cons.1 hp2 with hp3 | hp3
        · subst hp3
          exact ⟨hUn, hu, hUnSub, hUnLen⟩
        · simp at hp3

theorem dfsplit_parts {g : Entity → PyVal} {ents : List Entity} {etp : ℝ}
    {arg : PyVal} {sp : List (PyVal × List Entity)}
    (h : dfsplit g ents = .ok (etp, arg, sp)) :
    ∀ p ∈ sp, (∀ e ∈ p.2, g e = p.1) ∧ p.2 ≠ [] ∧ p.2 ⊆ ents ∧
      p.2.length < ents.length := by
  rcases dfsplit_ok h with ⟨hl2, harg, hsp, hsplen⟩
  subst hsp
  intro p hp
  rcases dfgroups_mem hp with ⟨heq, hne⟩
  refine ⟨?_, hne, ?_, dfgroups_length_lt hp hsplen⟩
  · intro e he
    rw [heq] at he
    have := (List.mem_filter.1 he).2
    simpa using this
  · intro e he
    rw [heq] at he
    exact (List.mem_filter.1 he).1

theorem mfsplit_parts {g : Entity → List String} {ents : List Entity}
    {etp : ℝ} {arg : PyVal} {sp : List (PyVal × List Entity)}
    (h : mfsplit g ents = .ok (etp, arg, sp)) :
    ∃ tok es nes, arg = .str tok ∧
      sp = [(.bool true, es), (.bool false, nes)] ∧
      (∀ e ∈ es, tok ∈ g e) ∧ (∀ e ∈ nes, tok ∉ g e) ∧
      (∀ p ∈ sp, p.2 ≠ [] ∧ p.2 ⊆ ents ∧ p.2.length < ents.length) := by
  rcases mfsplit_ok h with ⟨hl2, tok, es, nes, harg, hsp, hmem, hnes, hnesne⟩
  rcases mfgroups_mem hmem with ⟨hnd, hesne, hiff⟩
  have hessub : es ⊆ ents := fun e he => ((hiff e).1 he).1
  have hesin : ∀ e ∈ es, tok ∈ g e := fun e he => ((hiff e).1 he).2
  have hnesnot : ∀ e ∈ nes, tok ∉ g e := by
    intro e he hin
    rw [hnes] at he
    rcases List.mem_filter.1 he with ⟨hent, hdec⟩
    have : e ∉ es := by simpa using hdec
    exact this ((hiff e).2 ⟨hent, hin⟩)
  have hnessub : nes ⊆ ents := by
    intro e he
    rw [hnes] at he
    exact (List.mem_filter.1 he).1
  have heslen : es.length < ents.length := by
    rcases List.exists_mem_of_ne_nil _ hnesne with ⟨estar, hstar⟩
    rw [hnes] at hstar
    rcases List.mem_filter.1 hstar with ⟨hstar1, hstar2⟩
    have hstar3 : estar ∉ es := by simpa using hstar2
    have hsub : es ⊆ ents.filter (fun x => x ≠ estar) := by
      intro e he
      rw [List.mem_filter]
      refine ⟨hessub he, ?_⟩
      simp only [decide_eq_true_eq]
      intro heq
      exact hstar3 (heq ▸ he)
    have hle : es.length ≤ (ents.filter (fun x => x ≠ estar)).length :=
      (hnd.subperm hsub).length_le
    have hlt : (ents.filter (fun x => x ≠ estar)).length < ents.length := by
      apply length_filter_lt hstar1
      simp
    omega
  have hneslen : nes.length < ents.length := by
    rcases List.exists_mem_of_ne_nil _ hesne with ⟨e0, he0⟩
    rw [hnes]
    apply length_filter_lt (hessub he0)
    simp only [decide_eq_true_eq]
    intro hnot
    exact hnot he0
  refine ⟨tok, es, nes, harg, hsp, hesin, hnesnot, ?_⟩
  intro p hp
  rw [hsp] at hp
  rcases List.mem_cons.1 hp with hp1 | hp1
  · subst hp1
    exact ⟨hesne, hessub, heslen⟩
  · rcases List.mem_cons.1 hp1 with hp2 | hp2
    · subst hp2
      exact ⟨hnesne, hnessub, hneslen⟩
    · simp at hp2

/-! ### `Feature.split` dispatch -/

theorem split_assert (f : Feature) {ents : List Entity}
    (h : ents.length < 2) : f.split ents = .error .assertErr := by
  cases f with
  | DF a => exact dfsplit_assert h
  | DF1 i a => exact dfsplit_assert h
  | MF a => exact mfsplit_assert h
  | MF1 nm a => exact mfsplit_assert h
  | QF a => exact qfsplit_assert h

theorem split_error_invalid {f : Feature} {ents : List Entity} {err : Err}
    (h2 : 2 ≤ ents.length) (h : f.split ents = .error err) :
    err = .invalidSplit := by
  cases f with
  | DF a => exact dfsplit_error h2 h
  | DF1 i a => exact dfsplit_error h2 h
  | MF a => exact mfsplit_error h2 h
  | MF1 nm a => exact mfsplit_error h2 h
  | QF a => exact qfsplit_error h2 h

theorem split_error_cases {f : Feature} {ents : List Entity} {err : Err}
    (h : f.split ents = .error err) :
    err = .assertErr ∨ err = .invalidSplit := by
  by_cases hl : ents.length < 2
  · left
    have h2 := split_assert f hl
    rw [h2] at h
    cases h
    rfl
  · right
    exact split_error_invalid (by omega) h

theorem split_ok_shrinks {f : Feature} {ents : List Entity} {etp : ℝ}
    {arg : PyVal} {sp : List (PyVal × List Entity)}
    (h : f.split ents = .ok (etp, arg, sp)) :
    ∀ p ∈ sp, p.2 ≠ [] ∧ p.2 ⊆ ents ∧ p.2.length < ents.length := by
  cases f with
  | DF a =>
      intro p hp
      exact (dfsplit_parts h p hp).2
  | DF1 i a =>
      intro p hp
      exact (dfsplit_parts h p hp).2
  | MF a =>
      rcases mfsplit_parts h with ⟨tok, es, nes, _, _, _, _, hs⟩
      exact hs
  | MF1 nm a =>
      rcases mfsplit_parts h with ⟨tok, es, nes, _, _, _, _, hs⟩
      exact hs
  | QF a =>
      intro p hp
      exact (qfsplit_parts h p hp).2

theorem split_ok_two_le {f : Feature} {ents : List Entity} {etp : ℝ}
    {arg : PyVal} {sp : List (PyVal × List Entity)}
    (h : f.split ents = .ok (etp, arg, sp)) : 2 ≤ sp.length := by
  cases f with
  | DF a => exact (dfsplit_ok h).2.2.2
  | DF1 i a => exact (dfsplit_ok h).2.2.2
  | MF a =>
      rcases mfsplit_ok h with ⟨_, tok, es, nes, _, hsp, _⟩
      rw [hsp]
      simp
  | MF1 nm a =>
      rcases mfsplit_ok h with ⟨_, tok, es, nes, _, hsp, _⟩
      rw [hsp]
      simp
  | QF a =>
      rcases qfsplit_ok h with ⟨_, _, m, _, _, hsp⟩
      rw [hsp]
      split <;> simp

theorem split_routes {f : Feature} {ents : List Entity} {etp : ℝ}
    {arg : PyVal} {sp : List (PyVal × List Entity)}
    (h : f.split ents = .ok (etp, arg, sp)) :
    ∀ p ∈ sp, ∀ e ∈ p.2, f.ident arg e = .some p.1 := by
  cases f with
  | DF a =>
      intro p hp e he
      have := (dfsplit_parts h p hp).1 e he
      simp only [Feature.ident]
      rw [this]
  | DF1 i a =>
      intro p hp e he
      have := (dfsplit_parts h p hp).1 e he
      simp only [Feature.ident]
      rw [this]
  | MF a =>
      rcases mfsplit_parts h with ⟨tok, es, nes, harg, hsp, hin, hout, _⟩
      subst harg
      intro p hp e he
      rw [hsp] at hp
      rcases List.mem_cons.1 hp with hp1 | hp1
      · subst hp1
        simp only [Feature.ident]
        congr 2
        simpa using hin e he
      · rcases List.mem_cons.1 hp1 with hp2 | hp2
        · subst hp2
          simp only [Feature.ident]
          congr 2
          simpa using hout e he
        · simp at hp2
  | MF1 nm a =>
      rcases mfsplit_parts h with ⟨tok, es, nes, harg, hsp, hin, hout, _⟩
      subst harg
      intro p hp e he
      rw [hsp] at hp
      rcases List.mem_cons.1 hp with hp1 | hp1
      · subst hp1
        simp only [Feature.ident]
        congr 2
        simpa using hin e he
      · rcases List.mem_cons.1 hp1 with hp2 | hp2
        · subst hp2
          simp only [Feature.ident]
          congr 2
          simpa using hout e he
        · simp at hp2
  | QF a =>
      intro p hp e he
      exact (qfsplit_parts h p hp).1 e he

/-! ### The feature-selection loop -/

theorem selectbranch_ok {ents : List Entity} (h2 : 2 ≤ ents.length)
    (feats : List Feature) :
    ∀ best, ∃ r, selectbranch ents feats best = .ok r := by
  induction feats with
  | nil => intro best; exact ⟨best, rfl⟩
  | cons f fs ih =>
      intro best
      rcases hsplit : f.split ents with err | val
      · have herr := split_error_invalid h2 hsplit
        subst herr
        cases best <;> simp only [selectbranch, hsplit] <;> exact ih _
      · obtain ⟨etp, arg, sp⟩ := val
        cases best with
        | none => simp only [selectbranch, hsplit]; exact ih _
        | some b =>
            simp only [selectbranch, hsplit]
            by_cases hlt : etp < b.1
            · rw [if_pos hlt]; exact ih _
            · rw [if_neg hlt]; exact ih _

theorem selectbranch_error {ents : List Entity} {feats : List Feature} :
    ∀ best err, selectbranch ents feats best = .error err →
      err = .assertErr := by
  induction feats with
  | nil => intro best err h; cases h
  | cons f fs ih =>
      intro best err h
      rcases hsplit : f.split ents with e | val
      · cases e with
        | invalidSplit =>
            cases best <;> simp only [selectbranch, hsplit] at h <;>
              exact ih _ err h
        | assertErr =>
            cases best <;> simp only [selectbranch, hsplit] at h <;>
              (cases h; rfl)
        | zeroDivErr =>
            cases best <;> simp only [selectbranch, hsplit] at h <;>
              (cases h;
               rcases split_error_cases hsplit with h1 | h1 <;> cases h1)
        | typeErr =>
            cases best <;> simp only [selectbranch, hsplit] at h <;>
              (cases h;
               rcases split_error_cases hsplit with h1 | h1 <;> cases h1)
        | unknownFeat =>
            cases best <;> simp only [selectbranch, hsplit] at h <;>
              (cases h;
               rcases split_error_cases hsplit with h1 | h1 <;> cases h1)
        | noFuel =>
            cases best <;> simp only [selectbranch, hsplit] at h <;>
              (cases h;
               rcases split_error_cases hsplit with h1 | h1 <;> cases h1)
      · obtain ⟨etp, arg, sp⟩ := val
        cases best with
        | none =>
            simp only [selectbranch, hsplit] at h
            exact ih _ err h
        | some b =>
            simp only [selectbranch, hsplit] at h
            by_cases hlt : etp < b.1
            · rw [if_pos hlt] at h
              exact ih _ err h
            · rw [if_neg hlt] at h
              exact ih _ err h

theorem selectbranch_some_split {ents : List Entity} {feats : List Feature} :
    ∀ best etp f arg sp,
      selectbranch ents feats best = .ok (.some (etp, f, arg, sp)) →
      (f.split ents = .ok (etp, arg, sp) ∧ f ∈ feats) ∨
        best = .some (etp, f, arg, sp) := by
  induction feats with
  | nil =>
      intro best etp f arg sp h
      rw [selectbranch] at h
      cases h
      exact Or.inr rfl
  | cons f0 fs ih =>
      intro best etp f arg sp h
      rcases hsplit : f0.split ents with e | val
      · cases e with
        | invalidSplit =>
            cases best <;> simp only [selectbranch, hsplit] at h <;>
            · rcases ih _ etp f arg sp h with ⟨h1, h2⟩ | h1
              · exact Or.inl ⟨h1, List.mem_cons_of_mem _ h2⟩
              · exact Or.inr h1
        | assertErr =>
            cases best <;> simp only [selectbranch, hsplit] at h <;> cases h
        | zeroDivErr =>
            cases best <;> simp only [selectbranch, hsplit] at h <;> cases h
        | typeErr =>
            cases best <;> simp only [selectbranch, hsplit] at h <;> cases h
        | unknownFeat =>
            cases best <;> simp only [selectbranch, hsplit] at h <;> cases h
        | noFuel =>
            cases best <;> simp only [selectbranch, hsplit] at h <;> cases h
      · obtain ⟨etp0, arg0, sp0⟩ := val
        have hnew : selectbranch ents fs
              (.some (etp0, f0, arg0, sp0)) = .ok (.some (etp, f, arg, sp)) →
            (f.split ents = .ok (etp, arg, sp) ∧ f ∈ f0 :: fs) := by
          intro hrec
          rcases ih _ etp f arg sp hrec with ⟨h1, h2⟩ | h1
          · exact ⟨h1, List.mem_cons_of_mem _ h2⟩
          · cases h1
            exact ⟨hsplit, List.mem_cons_self _ _⟩
        cases best with
        | none =>
            simp only [selectbranch, hsplit] at h
            exact Or.inl (hnew h)
        | some b =>
            simp only [selectbranch, hsplit] at h
            by_cases hlt : etp0 < b.1
            · rw [if_pos hlt] at h
              exact Or.inl (hnew h)
            · rw [if_neg hlt] at h
              rcases ih _ etp f arg sp h with ⟨h1, h2⟩ | h1
              · exact Or.inl ⟨h1, List.mem_cons_of_mem _ h2⟩
              · exact Or.inr h1

theorem selectbranch_keeps_some {ents : List Entity} {feats : List Feature} :
    ∀ b, selectbranch ents feats (.some b) ≠ .ok .none := by
  induction feats with
  | nil => intro b h; cases h
  | cons f fs ih =>
      intro b h
      rcases hsplit : f.split ents with e | val
      · cases e with
        | invalidSplit =>
            simp only [selectbranch, hsplit] at h
            exact ih b h
        | assertErr => simp only [selectbranch, hsplit] at h; cases h
        | zeroDivErr => simp only [selectbranch, hsplit] at h; cases h
        | typeErr => simp only [selectbranch, hsplit] at h; cases h
        | unknownFeat => simp only [selectbranch, hsplit] at h; cases h
        | noFuel => simp only [selectbranch, hsplit] at h; cases h
      · obtain ⟨etp0, arg0, sp0⟩ := val
        simp only [selectbranch, hsplit] at h
        by_cases hlt : etp0 < b.1
        · rw [if_pos hlt] at h
          exact ih _ h
        · rw [if_neg hlt] at h
          exact ih _ h

theorem selectbranch_none_iff {ents : List Entity} {feats : List Feature} :
    selectbranch ents feats .none = .ok .none ↔
      ∀ f ∈ feats, f.split ents = .error .invalidSplit := by
  induction feats with
  | nil => simp [selectbranch]
  | cons f fs ih =>
      rcases hsplit : f.split ents with e | val
      · cases e with
        | invalidSplit =>
            simp only [selectbranch, hsplit]
            constructor
            · intro h f' hf'
              rcases List.mem_cons.1 hf' with h1 | h1
              · subst h1; exact hsplit
              · exact ih.1 h f' h1
            · intro h
              exact ih.2 (fun f' hf' => h f' (List.mem_cons_of_mem _ hf'))
        | assertErr =>
            simp only [selectbranch, hsplit]
            constructor
            · intro h; cases h
            · intro h
              have := h f (List.mem_cons_self _ _)
              rw [hsplit] at this
              cases this
        | zeroDivErr =>
            simp only [selectbranch, hsplit]
            constructor
            · intro h; cases h
            · intro h
              have := h f (List.mem_cons_self _ _)
              rw [hsplit] at this
              cases this
        | typeErr =>
            simp only [selectbranch, hsplit]
            constructor
            · intro h; cases h
            · intro h
              have := h f (List.mem_cons_self _ _)
              rw [hsplit] at this
              cases this
        | unknownFeat =>
            simp only [selectbranch, hsplit]
            constructor
            · intro h; cases h
            · intro h
              have := h f (List.mem_cons_self _ _)
              rw [hsplit] at this
              cases this
        | noFuel =>
            simp only [selectbranch, hsplit]
            constructor
            · intro h; cases h
            · intro h
              have := h f (List.mem_cons_self _ _)
              rw [hsplit] at this
              cases this
      · obtain ⟨etp0, arg0, sp0⟩ := val
        simp only [selectbranch, hsplit]
        constructor
        · intro h
          exact absurd h (selectbranch_keeps_some _)
        · intro h
          have := h f (List.mem_cons_self _ _)
          rw [hsplit] at this
          cases this

theorem selectbranch_min {ents : List Entity} {etp : ℝ} {f : Feature}
    {arg : PyVal} {sp : List (PyVal × List Entity)} :
    ∀ (fs : List Feature),
    (∀ f' ∈ fs, ∀ etp' arg' sp', f'.split ents = .ok (etp', arg', sp') →
      etp ≤ etp') →
    (∀ f' ∈ fs, ∀ err, f'.split ents = .error err → err = .invalidSplit) →
    selectbranch ents fs (.some (etp, f, arg, sp)) =
      .ok (.some (etp, f, arg, sp)) := by
  intro fs
  induction fs with
  | nil => intro _ _; rfl
  | cons f0 fs0 ih =>
      intro hmin herr
      rcases hsplit : f0.split ents with e | val
      · have he := herr f0 (List.mem_cons_self _ _) e hsplit
        subst he
        simp only [selectbranch, hsplit]
        exact ih (fun f' hf' => hmin f' (List.mem_cons_of_mem _ hf'))
          (fun f' hf' => herr f' (List.mem_cons_of_mem _ hf'))
      · obtain ⟨etp0, arg0, sp0⟩ := val
        simp only [selectbranch, hsplit]
        have hle := hmin f0 (List.mem_cons_self _ _) etp0 arg0 sp0 hsplit
        rw [if_neg (not_lt.2 hle)]
        exact ih (fun f' hf' => hmin f' (List.mem_cons_of_mem _ hf'))
          (fun f' hf' => herr f' (List.mem_cons_of_mem _ hf'))

theorem selectbranch_first {ents : List Entity} {etp : ℝ} {f : Feature}
    {arg : PyVal} {sp : List (PyVal × List Entity)} {fs : List Feature}
    (hsp : f.split ents = .ok (etp, arg, sp))
    (hmin : ∀ f' ∈ fs, ∀ etp' arg' sp', f'.split ents = .ok (etp', arg', sp') →
      etp ≤ etp')
    (herr : ∀ f' ∈ fs, ∀ err, f'.split ents = .error err →
      err = .invalidSplit) :
    selectbranch ents (f :: fs) .none = .ok (.some (etp, f, arg, sp)) := by
  simp only [selectbranch, hsp]
  exact selectbranch_min fs hmin herr

/-! ### `TreeBuilder.build` -/

theorem countkeys_singleton (e : Entity) : countkeys [e] = [(e.key, 1)] := rfl

theorem buildChildren_congr {r1 r2 : List Entity → Except Err (Option Tree)}
    {sp : List (PyVal × List Entity)} (h : ∀ p ∈ sp, r1 p.2 = r2 p.2) :
    buildChildren r1 sp = buildChildren r2 sp := by
  induction sp with
  | nil => rfl
  | cons p rest ih =>
      rw [buildChildren, buildChildren]
      unfold buildChild
      rw [h p (List.mem_cons_self _ _),
        ih (fun q hq => h q (List.mem_cons_of_mem _ hq))]

theorem buildChildren_noFuel {recur : List Entity → Except Err (Option Tree)}
    {sp : List (PyVal × List Entity)}
    (h : ∀ p ∈ sp, recur p.2 ≠ .error .noFuel) :
    buildChildren recur sp ≠ .error .noFuel := by
  induction sp with
  | nil => intro hc; cases hc
  | cons p rest ih =>
      intro hc
      rw [buildChildren] at hc
      unfold buildChild at hc
      rcases hr : recur p.2 with err | ot
      · rw [hr] at hc
        cases hc
        exact h p (List.mem_cons_self _ _) hr
      · rw [hr] at hc
        cases ot with
        | none =>
            rcases hbk : bestkey (countkeys p.2) with _ | b
            · rw [hbk] at hc
              cases hc
            · rw [hbk] at hc
              rcases hrest : buildChildren recur rest with err | cs
              · rw [hrest] at hc
                cases hc
                exact ih (fun q hq => h q (List.mem_cons_of_mem _ hq)) hrest
              · rw [hrest] at hc
                cases hc
        | some t =>
            rcases hrest : buildChildren recur rest with err | cs
            · rw [hrest] at hc
              cases hc
              exact ih (fun q hq => h q (List.mem_cons_of_mem _ hq)) hrest
            · rw [hrest] at hc
              cases hc

theorem buildChildren_ok {recur : List Entity → Except Err (Option Tree)}
    {sp : List (PyVal × List Entity)}
    (h : ∀ p ∈ sp, (∃ t, recur p.2 = .ok t) ∧ p.2 ≠ []) :
    ∃ cs, buildChildren recur sp = .ok cs := by
  induction sp with
  | nil => exact ⟨[], rfl⟩
  | cons p rest ih =>
      rcases h p (List.mem_cons_self _ _) with ⟨⟨t, ht⟩, hne⟩
      rcases ih (fun q hq => h q (List.mem_cons_of_mem _ hq)) with ⟨cs, hcs⟩
      rw [buildChildren]
      unfold buildChild
      rw [ht, hcs]
      cases t with
      | none =>
          rcases Option.isSome_iff_exists.1
            (bestkey_isSome (countkeys_ne_nil hne)) with ⟨b, hb⟩
          rw [hb]
          exact ⟨_, rfl⟩
      | some t' => exact ⟨_, rfl⟩

theorem buildChildren_eq_map {recur : List Entity → Except Err (Option Tree)}
    {sp : List (PyVal × List Entity)}
    (h : ∀ p ∈ sp, (∃ t, recur p.2 = .ok t) ∧ p.2 ≠ []) :
    buildChildren recur sp = .ok (sp.map (fun p => (p.1,
      match recur p.2 with
      | .ok (.some t) => t
      | _ => .leaf ((bestkey (countkeys p.2)).getD "")))) := by
  induction sp with
  | nil => rfl
  | cons p rest ih =>
      rcases h p (List.mem_cons_self _ _) with ⟨⟨t, ht⟩, hne⟩
      rw [buildChildren]
      unfold buildChild
      rw [ht, ih (fun q hq => h q (List.mem_cons_of_mem _ hq))]
      rw [List.map_cons]
      cases t with
      | none =>
          rcases Option.isSome_iff_exists.1
            (bestkey_isSome (countkeys_ne_nil hne)) with ⟨b, hb⟩
          rw [hb]
          simp [ht, hb]
      | some t' =>
          simp only [ht]

theorem calcetp_countkeys {ents : List Entity} (h : ents ≠ []) :
    calcetp ((countkeys ents).map Prod.snd)
      = .some (calcetpR ((countkeys ents).map Prod.snd)) := by
  apply calcetp_of_pos
  · intro hm
    exact countkeys_ne_nil h (List.map_eq_nil_iff.1 hm)
  · intro v hv
    rcases List.mem_map.1 hv with ⟨kv, hkv, hkv2⟩
    rw [← hkv2]
    exact countkeys_pos ents kv hkv

theorem two_le_of_stop {ents : List Entity} {me etp : ℝ}
    (hne : ents ≠ []) (hme : 0 < me)
    (hc : calcetp ((countkeys ents).map Prod.snd) = .some etp)
    (h3 : ¬ etp < me) : 2 ≤ ents.length := by
  rcases ents with _ | ⟨e, rest⟩
  · cases hne rfl
  · rcases rest with _ | ⟨e2, rest2⟩
    · exfalso
      rw [calcetp_countkeys (by simp), countkeys_singleton] at hc
      have hetp : etp = calcetpR [1] := by
        cases hc
        rfl
      rw [calcetpR_single 1] at hetp
      exact h3 (hetp ▸ hme)
    · simp

theorem buildF_congr (mk : Nat) (me : ℝ) (feats : List Feature) :
    ∀ fuel1 fuel2 (ents : List Entity), ents.length < fuel1 →
      ents.length < fuel2 →
      buildF mk me feats fuel1 ents = buildF mk me feats fuel2 ents := by
  intro fuel1
  induction fuel1 with
  | zero => intro fuel2 ents h1 h2; omega
  | succ n1 ih =>
      intro fuel2 ents h1 h2
      rcases fuel2 with _ | n2
      · omega
      · rcases hc : calcetp ((countkeys ents).map Prod.snd) with _ | etp
        · simp only [buildF, hc]
        · simp only [buildF, hc]
          by_cases h3 : etp < me
          · rw [if_pos h3, if_pos h3]
          · rw [if_neg h3, if_neg h3]
            by_cases h4 : ents.length < mk
            · rw [if_pos h4, if_pos h4]
            · rw [if_neg h4, if_neg h4]
              rcases hsel : selectbranch ents feats .none with err | ob
              · simp only [hsel]
              · rcases ob with _ | ⟨wetp, feat, arg, sp⟩
                · simp only [hsel]
                · simp only [hsel]
                  rcases hbk : bestkey (countkeys ents) with _ | dflt
                  · simp only [hbk]
                  · simp only [hbk]
                    have hsplit := selectbranch_some_split .none wetp feat arg
                      sp hsel
                    rcases hsplit with ⟨hsp, _⟩ | habs
                    · have hch : buildChildren (buildF mk me feats n1) sp =
                          buildChildren (buildF mk me feats n2) sp := by
                        apply buildChildren_congr
                        intro p hp
                        have hlt := (split_ok_shrinks hsp p hp).2.2
                        exact ih n2 p.2 (by omega) (by omega)
                      rw [hch]
                    · cases habs

theorem build_eq_buildF {mk : Nat} {me : ℝ} {feats : List Feature}
    {ents : List Entity} {fuel : Nat} (h : ents.length < fuel) :
    TreeBuilder.build mk me feats ents = buildF mk me feats fuel ents :=
  buildF_congr mk me feats (ents.length + 1) fuel ents (by omega) h

theorem buildF_ok (mk : Nat) (me : ℝ) (feats : List Feature) (hme : 0 < me) :
    ∀ (fuel : Nat) (ents : List Entity), ents ≠ [] → ents.length < fuel →
      ∃ r, buildF mk me feats fuel ents = .ok r := by
  intro fuel
  induction fuel with
  | zero => intro ents h1 h2; omega
  | succ n ih =>
      intro ents h1 h2
      have hc := calcetp_countkeys h1
      simp only [buildF, hc]
      by_cases h3 : calcetpR ((countkeys ents).map Prod.snd) < me
      · rw [if_pos h3]; exact ⟨_, rfl⟩
      · rw [if_neg h3]
        by_cases h4 : ents.length < mk
        · rw [if_pos h4]; exact ⟨_, rfl⟩
        · rw [if_neg h4]
          have h2len : 2 ≤ ents.length := two_le_of_stop h1 hme hc h3
          rcases selectbranch_ok h2len feats .none with ⟨r, hr⟩
          rcases r with _ | ⟨wetp, feat, arg, sp⟩
          · simp only [hr]; exact ⟨_, rfl⟩
          · simp only [hr]
            rcases Option.isSome_iff_exists.1
              (bestkey_isSome (countkeys_ne_nil h1)) with ⟨dflt, hbk⟩
            simp only [hbk]
            have hsp : feat.split ents = .ok (wetp, arg, sp) := by
              rcases selectbranch_some_split .none wetp feat arg sp hr with
                ⟨hh, _⟩ | hh
              · exact hh
              · cases hh
            have hch : ∃ cs, buildChildren (buildF mk me feats n) sp = .ok cs := by
              apply buildChildren_ok
              intro p hp
              rcases split_ok_shrinks hsp p hp with ⟨hpne, _, hplt⟩
              exact ⟨ih p.2 hpne (by omega), hpne⟩
            rcases hch with ⟨cs, hcs⟩
            simp only [hcs]
            exact ⟨_, rfl⟩

theorem buildF_noFuel (mk : Nat) (me : ℝ) (feats : List Feature) :
    ∀ (fuel : Nat) (ents : List Entity), ents.length < fuel →
      buildF mk me feats fuel ents ≠ .error .noFuel := by
  intro fuel
  induction fuel with
  | zero => intro ents h1; omega
  | succ n ih =>
      intro ents hlen h
      rcases hc : calcetp ((countkeys ents).map Prod.snd) with _ | etp
      · simp only [buildF, hc] at h
        cases h
      · simp only [buildF, hc] at h
        by_cases h3 : etp < me
        · rw [if_pos h3] at h; cases h
        · rw [if_neg h3] at h
          by_cases h4 : ents.length < mk
          · rw [if_pos h4] at h; cases h
          · rw [if_neg h4] at h
            rcases hsel : selectbranch ents feats .none with err | ob
            · simp only [hsel] at h
              cases h
              have := selectbranch_error .none _ hsel
              cases this
            · rcases ob with _ | ⟨wetp, feat, arg, sp⟩
              · simp only [hsel] at h; cases h
              · simp only [hsel] at h
                rcases hbk : bestkey (countkeys ents) with _ | dflt
                · simp only [hbk] at h; cases h
                · simp only [hbk] at h
                  have hsp : feat.split ents = .ok (wetp, arg, sp) := by
                    rcases selectbranch_some_split .none wetp feat arg sp hsel
                      with ⟨hh, _⟩ | hh
                    · exact hh
                    · cases hh
                  rcases hbc : buildChildren (buildF mk me feats n) sp
                      with err | cs
                  · rw [hbc] at h
                    cases h
                    apply buildChildren_noFuel _ hbc
                    intro p hp
                    rcases split_ok_shrinks hsp p hp with ⟨_, _, hplt⟩
                    exact ih p.2 (by omega)
                  · rw [hbc] at h
                    cases h

theorem build_noFuel (mk : Nat) (me : ℝ) (feats : List Feature)
    (ents : List Entity) :
    TreeBuilder.build mk me feats ents ≠ .error .noFuel :=
  buildF_noFuel mk me feats (ents.length + 1) ents (by omega)

theorem buildChildren_uses {recur : List Entity → Except Err (Option Tree)}
    {feats : List Feature} :
    ∀ (sp : List (PyVal × List Entity)) (cs : List (PyVal × Tree)),
    buildChildren recur sp = .ok cs →
    (∀ p ∈ sp, ∀ t, recur p.2 = .ok (.some t) → Tree.UsesFeats feats t) →
    ∀ c ∈ cs, Tree.UsesFeats feats c.2 := by
  intro sp
  induction sp with
  | nil =>
      intro cs hc _
      cases hc
      intro c hc'
      simp at hc'
  | cons p rest ih =>
      intro cs hc hrec
      rw [buildChildren] at hc
      unfold buildChild at hc
      rcases hr : recur p.2 with err | ot
      · rw [hr] at hc; cases hc
      · rw [hr] at hc
        rcases hrest : buildChildren recur rest with err | cs0
        · rw [hrest] at hc
          cases ot with
          | none =>
              rcases hbk : bestkey (countkeys p.2) with _ | b <;>
                rw [hbk] at hc <;> cases hc
          | some t => cases hc
        · rw [hrest] at hc
          have ihrest := ih cs0 hrest
            (fun q hq => hrec q (List.mem_cons_of_mem _ hq))
          cases ot with
          | none =>
              rcases hbk : bestkey (countkeys p.2) with _ | b
              · rw [hbk] at hc; cases hc
              · rw [hbk] at hc
                cases hc
                intro c hcmem
                rcases List.mem_cons.1 hcmem with h1 | h1
                · subst h1
                  exact Tree.UsesFeats.leaf b
                · exact ihrest c h1
          | some t =>
              cases hc
              intro c hcmem
              rcases List.mem_cons.1 hcmem with h1 | h1
              · subst h1
                exact hrec p (List.mem_cons_self _ _) t hr
              · exact ihrest c h1

theorem buildF_usesFeats (mk : Nat) (me : ℝ) (feats : List Feature) :
    ∀ (fuel : Nat) (ents : List Entity) (t : Tree),
      buildF mk me feats fuel ents = .ok (.some t) →
      Tree.UsesFeats feats t := by
  intro fuel
  induction fuel with
  | zero => intro ents t h; cases h
  | succ n ih =>
      intro ents t h
      rcases hc : calcetp ((countkeys ents).map Prod.snd) with _ | etp
      · simp only [buildF, hc] at h; cases h
      · simp only [buildF, hc] at h
        by_cases h3 : etp < me
        · rw [if_pos h3] at h; cases h
        · rw [if_neg h3] at h
          by_cases h4 : ents.length < mk
          · rw [if_pos h4] at h; cases h
          · rw [if_neg h4] at h
            rcases hsel : selectbranch ents feats .none with err | ob
            · simp only [hsel] at h; cases h
            · rcases ob with _ | ⟨wetp, feat, arg, sp⟩
              · simp only [hsel] at h; cases h
              · simp only [hsel] at h
                rcases hbk : bestkey (countkeys ents) with _ | dflt
                · simp only [hbk] at h; cases h
                · simp only [hbk] at h
                  rcases hbc : buildChildren (buildF mk me feats n) sp
                      with err | cs
                  · rw [hbc] at h; cases h
                  · rw [hbc] at h
                    cases h
                    have hmem : feat ∈ feats := by
                      rcases selectbranch_some_split .none wetp feat arg sp hsel
                        with ⟨_, hh⟩ | hh
                      · exact hh
                      · cases hh
                    exact Tree.UsesFeats.branch hmem
                      (buildChildren_uses sp cs hbc
                        (fun p _ t' ht' => ih p.2 t' ht'))

/-! ### Classification -/

theorem testLook_absent (e : Entity) (dflt : String) (v : PyVal) :
    ∀ cs : List (PyVal × Tree), (∀ p ∈ cs, p.1 ≠ v) →
      testLook e dflt v cs = .some dflt := by
  intro cs
  induction cs with
  | nil => intro _; rfl
  | cons p rest ih =>
      intro h
      obtain ⟨v', c⟩ := p
      rw [testLook]
      rw [if_neg (h (v', c) (List.mem_cons_self _ _))]
      exact ih (fun q hq => h q (List.mem_cons_of_mem _ hq))

theorem testLook_found (e : Entity) (dflt : String) (v : PyVal) :
    ∀ (cs : List (PyVal × Tree)) (c : Tree), cs.lookup v = .some c →
      testLook e dflt v cs = c.test e := by
  intro cs
  induction cs with
  | nil => intro c h; cases h
  | cons p rest ih =>
      intro c h
      obtain ⟨v', c'⟩ := p
      rw [lookup_cons] at h
      rw [testLook]
      by_cases hv : v' = v
      · rw [if_pos hv]
        rw [if_pos hv.symm] at h
        cases h
        rfl
      · rw [if_neg hv]
        rw [if_neg (fun hh => hv hh.symm)] at h
        exact ih c h

theorem test_isSome {t : Tree} (h : t.WF) (e : Entity) :
    (t.test e).isSome := by
  induction h with
  | leaf k => rfl
  | branch hident hcs ih =>
      rename_i f arg dflt cs
      rcases Option.isSome_iff_exists.1 (hident e) with ⟨v, hv⟩
      simp only [Tree.test, hv]
      clear hv hident
      induction cs with
      | nil => rfl
      | cons p rest ihl =>
          rw [testLook]
          by_cases hp : p.1 = v
          · obtain ⟨v', c⟩ := p
            rw [if_pos hp]
            exact ih (v', c) (List.mem_cons_self _ _)
          · obtain ⟨v', c⟩ := p
            rw [if_neg hp]
            exact ihl (fun q hq => hcs q (List.mem_cons_of_mem _ hq))
              (fun q hq => ih q (List.mem_cons_of_mem _ hq))

/-! ### Serialization -/

mutual

theorem export_import_tree (feats : List Feature) :
    ∀ (p : PTree) (t : Tree), import_tree feats p = .ok t →
      export_tree t = p
  | .leaf k, t, h => by
      rw [import_tree] at h
      cases h
      rfl
  | .node fname arg dflt cs, t, h => by
      rw [import_tree] at h
      rcases hf : feats.find? (fun f => f.name = fname) with _ | f
      · rw [hf] at h; cases h
      · rw [hf] at h
        rcases hcs : importChildren feats cs with err | cs'
        · rw [hcs] at h; cases h
        · rw [hcs] at h
          cases h
          rw [export_tree]
          have hname : f.name = fname := by
            have := List.find?_some hf
            simpa using this
          rw [hname, export_import_children feats cs cs' hcs]

theorem export_import_children (feats : List Feature) :
    ∀ (ps : List (PyVal × PTree)) (cs : List (PyVal × Tree)),
      importChildren feats ps = .ok cs → exportChildren cs = ps
  | [], cs, h => by
      rw [importChildren] at h
      cases h
      rfl
  | (v, p) :: rest, cs, h => by
      rw [importChildren] at h
      rcases hp : import_tree feats p with err | c
      · rw [hp] at h; cases h
      · rw [hp] at h
        rcases hrest : importChildren feats rest with err | rest'
        · rw [hrest] at h; cases h
        · rw [hrest] at h
          cases h
          rw [exportChildren, export_import_tree feats p c hp,
            export_import_children feats rest rest' hrest]

end

theorem importChildren_of_uses {feats : List Feature} :
    ∀ (cs : List (PyVal × Tree)),
    (∀ p ∈ cs, ∃ t', import_tree feats (export_tree p.2) = .ok t') →
    ∃ cs', importChildren feats (exportChildren cs) = .ok cs' := by
  intro cs
  induction cs with
  | nil => intro _; exact ⟨[], rfl⟩
  | cons p rest ih =>
      intro h
      obtain ⟨v, c⟩ := p
      rcases h (v, c) (List.mem_cons_self _ _) with ⟨t', ht'⟩
      rcases ih (fun q hq => h q (List.mem_cons_of_mem _ hq)) with ⟨cs', hcs'⟩
      rw [exportChildren, importChildren, ht', hcs']
      exact ⟨_, rfl⟩

theorem import_of_uses {feats : List Feature} {t : Tree}
    (h : Tree.UsesFeats feats t) :
    ∃ t', import_tree feats (export_tree t) = .ok t' := by
  induction h with
  | leaf k => exact ⟨.leaf k, rfl⟩
  | branch hf hcs ih =>
      rename_i f arg dflt cs
      have hfind : (feats.find? (fun f' => f'.name = f.name)).isSome := by
        rw [List.find?_isSome]
        exact ⟨f, hf, by simp⟩
      rcases Option.isSome_iff_exists.1 hfind with ⟨f', hf'⟩
      rcases importChildren_of_uses cs ih with ⟨cs', hcs'⟩
      rw [export_tree, import_tree, hf', hcs']
      exact ⟨_, rfl⟩

/-! ### Scoring -/

theorem bump_lookup_self (d : List (String × Nat)) (k : String) :
    (bump d k).lookup k = .some ((d.lookup k).getD 0 + 1) := by
  unfold bump
  rw [lookup_upsert_self]
  cases h : d.lookup k <;> simp

theorem bump_lookup_other (d : List (String × Nat)) {k k' : String}
    (h : k' ≠ k) : (bump d k).lookup k' = d.lookup k' :=
  lookup_upsert_other d _ _ h

theorem bump_keysNodup {d : List (String × Nat)} (k : String)
    (h : (d.map Prod.fst).Nodup) : ((bump d k).map Prod.fst).Nodup :=
  keysNodup_upsert k _ _ h

theorem bump_getD_le (d : List (String × Nat)) (k k' : String) :
    (d.lookup k').getD 0 ≤ ((bump d k).lookup k').getD 0 := by
  by_cases h : k' = k
  · subst h
    rw [bump_lookup_self]
    simp
  · rw [bump_lookup_other d h]

theorem bump_isSome_iff (d : List (String × Nat)) (k k' : String) :
    ((bump d k).lookup k').isSome ↔ ((d.lookup k').isSome ∨ k' = k) := by
  by_cases h : k' = k
  · subst h
    rw [bump_lookup_self]
    simp
  · rw [bump_lookup_other d h]
    simp [h]

theorem score_spec (t : Tree) :
    ∀ (l : List Entity) (ks rs cs K R C : List (String × Nat)),
    score t l (ks, rs, cs) = .some (K, R, C) →
    (∀ kv ∈ cs, 0 < kv.2) → (cs.map Prod.fst).Nodup →
    (∀ k, (cs.lookup k).getD 0 ≤ (rs.lookup k).getD 0) →
    (∀ k, (cs.lookup k).getD 0 ≤ (ks.lookup k).getD 0) →
    ((∀ kv ∈ C, 0 < kv.2) ∧ (C.map Prod.fst).Nodup ∧
     (∀ k, (C.lookup k).getD 0 ≤ (R.lookup k).getD 0) ∧
     (∀ k, (C.lookup k).getD 0 ≤ (K.lookup k).getD 0) ∧
     (∀ k, (C.lookup k).isSome ↔
       ((cs.lookup k).isSome ∨ ∃ e ∈ l, e.key = k ∧ t.test e = .some k))) := by
  intro l
  induction l with
  | nil =>
      intro ks rs cs K R C h hpos hnd hr hk
      rw [score] at h
      cases h
      refine ⟨hpos, hnd, hr, hk, ?_⟩
      intro k
      simp
  | cons e rest ih =>
      intro ks rs cs K R C h hpos hnd hr hk
      rw [score] at h
      rcases ht : t.test e with _ | k
      · rw [ht] at h; cases h
      · simp only [ht] at h
        by_cases hek : e.key = k
        · rw [if_pos hek] at h
          have hres := ih (bump ks e.key) (bump rs k) (bump cs k) K R C h
            (mem_bump_pos cs k hpos) (bump_keysNodup k hnd)
            (by intro k0
                by_cases hk0 : k0 = k
                · subst hk0
                  rw [bump_lookup_self, bump_lookup_self]
                  simpa using hr k0
                · rw [bump_lookup_other cs hk0, bump_lookup_other rs hk0]
                  exact hr k0)
            (by intro k0
                by_cases hk0 : k0 = k
                · subst hk0
                  rw [bump_lookup_self]
                  rw [hek, bump_lookup_self]
                  simpa using hk k0
                · rw [bump_lookup_other cs hk0]
                  rw [hek, bump_lookup_other ks hk0]
                  exact hk k0)
          rcases hres with ⟨p1, p2, p3, p4, p5⟩
          refine ⟨p1, p2, p3, p4, ?_⟩
          intro k0
          rw [p5 k0, bump_isSome_iff]
          constructor
          · rintro (⟨hc | hkk⟩ | ⟨e', he', hkey, htest⟩)
            · exact Or.inl hc
            · subst hkk
              exact Or.inr ⟨e, List.mem_cons_self _ _, hek, ht⟩
            · exact Or.inr ⟨e', List.mem_cons_of_mem _ he', hkey, htest⟩
          · rintro (hc | ⟨e', he', hkey, htest⟩)
            · exact Or.inl (Or.inl hc)
            · rcases List.mem_cons.1 he' with he'' | he''
              · subst he''
                rw [ht] at htest
                have : k = k0 := by cases htest; rfl
                exact Or.inl (Or.inr this.symm)
              · exact Or.inr ⟨e', he'', hkey, htest⟩
        · rw [if_neg hek] at h
          have hres := ih (bump ks e.key) (bump rs k) cs K R C h
            hpos hnd
            (by intro k0
                exact le_trans (hr k0) (bump_getD_le rs k k0))
            (by intro k0
                exact le_trans (hk k0) (bump_getD_le ks e.key k0))
          rcases hres with ⟨p1, p2, p3, p4, p5⟩
          refine ⟨p1, p2, p3, p4, ?_⟩
          intro k0
          rw [p5 k0]
          constructor
          · rintro (hc | ⟨e', he', hkey, htest⟩)
            · exact Or.inl hc
            · exact Or.inr ⟨e', List.mem_cons_of_mem _ he', hkey, htest⟩
          · rintro (hc | ⟨e', he', hkey, htest⟩)
            · exact Or.inl hc
            · rcases List.mem_cons.1 he' with he'' | he''
              · subst he''
                rw [ht] at htest
                have hkk : k = k0 := by cases htest; rfl
                exact absurd (hkey.trans hkk.symm) hek
              · exact Or.inr ⟨e', he'', hkey, htest⟩

/-! ### Concrete evaluations for the demonstration data -/

theorem entetpR_single (e : Entity) : entetpR [e] = 0 := by
  unfold entetpR
  rw [countkeys_singleton]
  exact calcetpR_single 1

theorem buildF_single (mk : Nat) {me : ℝ} (feats : List Feature) (fuel : Nat)
    (e : Entity) (hme : 0 < me) :
    buildF mk me feats (fuel + 1) [e] = .ok .none := by
  have hc : calcetp ((countkeys [e]).map Prod.snd) = .some 0 := by
    rw [countkeys_singleton]
    have h1 : calcetp [1] = .some (calcetpR [1]) :=
      calcetp_of_pos (by simp) (by simp)
    rw [show ([(e.key, 1)].map Prod.snd) = [1] from rfl, h1, calcetpR_single]
  simp only [buildF, hc]
  rw [if_pos hme]

theorem calcetpR_pair_one {a : Nat} (ha : 0 < a) : calcetpR [a, a] = 1 := by
  unfold calcetpR
  have ha' : ((a : ℝ)) ≠ 0 := by exact_mod_cast ha.ne'
  simp only [List.sum_cons, List.sum_nil, List.map_cons, List.map_nil]
  push_cast
  have h2 : ((a : ℝ) + ((a : ℝ) + 0)) / (a : ℝ) = 2 := by
    field_simp
    ring
  rw [h2, Real.logb_self_eq_one (by norm_num)]
  field_simp

theorem demo_dfsplit : Feature.split (.DF "a") demoPair =
    .ok (0, .none, [(.str "x", [entA]), (.str "y", [entB])]) := by
  show dfsplit (dfGet "a") demoPair = _
  rw [dfsplit_eq]
  rw [if_neg (by decide)]
  rw [show dfgroups (dfGet "a") demoPair
    = [(.str "x", [entA]), (.str "y", [entB])] from rfl]
  rw [if_neg (by decide)]
  have h0 : ((([((PyVal.str "x" : PyVal), [entA]), (.str "y", [entB])]).map
      (fun kv => (kv.2.length : ℝ) * entetpR kv.2)).sum) /
      ((demoPair.length : ℕ) : ℝ) = 0 := by
    simp [entetpR_single]
  rw [h0]

theorem demo_dfsplit_b : Feature.split (.DF "b") demoPair =
    .ok (0, .none, [(.str "u", [entA]), (.str "v", [entB])]) := by
  show dfsplit (dfGet "b") demoPair = _
  rw [dfsplit_eq]
  rw [if_neg (by decide)]
  rw [show dfgroups (dfGet "b") demoPair
    = [(.str "u", [entA]), (.str "v", [entB])] from rfl]
  rw [if_neg (by decide)]
  have h0 : ((([((PyVal.str "u" : PyVal), [entA]), (.str "v", [entB])]).map
      (fun kv => (kv.2.length : ℝ) * entetpR kv.2)).sum) /
      ((demoPair.length : ℕ) : ℝ) = 0 := by
    simp [entetpR_single]
  rw [h0]

theorem demo_selectbranch : selectbranch demoPair [.DF "a"] .none =
    .ok (.some (0, .DF "a", .none,
      [(.str "x", [entA]), (.str "y", [entB])])) := by
  simp only [selectbranch, demo_dfsplit]

theorem buildF_succ (mk : Nat) (me : ℝ) (feats : List Feature) (fuel : Nat)
    (ents : List Entity) :
    buildF mk me feats (fuel + 1) ents =
      match calcetp ((countkeys ents).map Prod.snd) with
      | .none => .error .zeroDivErr
      | .some etp =>
          if etp < me then .ok .none
          else if ents.length < mk then .ok .none
          else
            match selectbranch ents feats .none with
            | .error err => .error err
            | .ok .none => .ok .none
            | .ok (.some (_, feat, arg, sp)) =>
                match bestkey (countkeys ents) with
                | .none => .error .assertErr
                | .some dflt =>
                    match buildChildren (buildF mk me feats fuel) sp with
                    | .error err => .error err
                    | .ok cs => .ok (.some (.branch feat arg dflt cs)) := rfl

theorem demo_build : TreeBuilder.build 2 (1/2) [.DF "a"] demoPair =
    .ok (.some demoTree) := by
  have hc : calcetp ((countkeys demoPair).map Prod.snd) = .some 1 := by
    have h1 : calcetp [1, 1] = .some (calcetpR [1, 1]) :=
      calcetp_of_pos (by simp) (by simp)
    rw [show (countkeys demoPair).map Prod.snd = [1, 1] from rfl, h1,
      calcetpR_pair_one Nat.one_pos]
  show buildF 2 (1/2) [.DF "a"] (2 + 1) demoPair = _
  rw [buildF_succ]
  simp only [hc]
  rw [if_neg (by norm_num)]
  rw [if_neg (by decide)]
  simp only [demo_selectbranch]
  rw [show bestkey (countkeys demoPair) = .some "A" from rfl]
  have hA : buildF 2 (1/2) [.DF "a"] 2 [entA] = .ok .none :=
    buildF_single 2 [.DF "a"] 1 entA (by norm_num)
  have hB : buildF 2 (1/2) [.DF "a"] 2 [entB] = .ok .none :=
    buildF_single 2 [.DF "a"] 1 entB (by norm_num)
  have hch : buildChildren (buildF 2 (1/2) [.DF "a"] 2)
      [(.str "x", [entA]), (.str "y", [entB])]
      = .ok [(.str "x", .leaf "A"), (.str "y", .leaf "B")] := by
    rw [buildChildren]
    unfold buildChild
    simp only [hA]
    rw [show bestkey (countkeys [entA]) = .some "A" from rfl]
    rw [buildChildren]
    unfold buildChild
    simp only [hB]
    rw [show bestkey (countkeys [entB]) = .some "B" from rfl]
    rw [buildChildren]
  simp only [hch]
  rfl

theorem demo_etp_four : entetpR [qA2, qA3, qB5, qB9] = 1 := by
  unfold entetpR
  rw [show countkeys [qA2, qA3, qB5, qB9] = [("A", 2), ("B", 2)] from rfl]
  exact calcetpR_pair_one (by norm_num)

theorem demo_etp_take3 : entetpR [qA1, qA2, qA3] = 0 := by
  unfold entetpR
  rw [show countkeys [qA1, qA2, qA3] = [("A", 3)] from rfl]
  exact calcetpR_single 3

theorem demo_etp_drop3 : entetpR [qB5, qB9] = 0 := by
  unfold entetpR
  rw [show countkeys [qB5, qB9] = [("B", 2)] from rfl]
  exact calcetpR_single 2

theorem demo_cut1 : cutEtp [qA1, qA2, qA3, qB5, qB9] 5 1 = 4/5 := by
  unfold cutEtp
  rw [show ([qA1, qA2, qA3, qB5, qB9].take 1) = [qA1] from rfl,
    show ([qA1, qA2, qA3, qB5, qB9].drop 1) = [qA2, qA3, qB5, qB9] from rfl,
    entetpR_single, demo_etp_four]
  norm_num

theorem demo_cut3 : cutEtp [qA1, qA2, qA3, qB5, qB9] 5 3 = 0 := by
  unfold cutEtp
  rw [show ([qA1, qA2, qA3, qB5, qB9].take 3) = [qA1, qA2, qA3] from rfl,
    show ([qA1, qA2, qA3, qB5, qB9].drop 3) = [qB5, qB9] from rfl,
    demo_etp_take3, demo_etp_drop3]
  norm_num

theorem demo_cut4_nonneg : 0 ≤ cutEtp [qA1, qA2, qA3, qB5, qB9] 5 4 := by
  unfold cutEtp
  apply div_nonneg _ (by norm_num)
  apply add_nonneg
  · exact mul_nonneg (by norm_num) (entetpR_nonneg _)
  · exact mul_nonneg (by norm_num) (entetpR_nonneg _)

theorem demo_qfscan : qfscan [qA1, qA2, qA3, qB5, qB9] ([1, 2, 2, 5, 9])
    5 = .some (0, 3) := by
  unfold qfscan
  rw [show List.range' 1 (5 - 1) = [1, 2, 3, 4] from rfl]
  rw [List.foldl_cons]
  rw [qfstep_cand_none _ _ _ _ _ (by decide) rfl]
  rw [show (([1, 2, 2, 5, 9] : List Int).getD 1 0) = 2 from rfl]
  rw [List.foldl_cons]
  rw [qfstep_skip _ _ _ _ _ (by decide)]
  rw [List.foldl_cons]
  rw [qfstep_cand_some _ _ _ _ _ (by decide) rfl]
  rw [demo_cut3, demo_cut1]
  rw [if_pos (by norm_num)]
  rw [show (([1, 2, 2, 5, 9] : List Int).getD 3 0) = 5 from rfl]
  rw [List.foldl_cons]
  rw [qfstep_cand_some _ _ _ _ _ (by decide) rfl]
  rw [show ((0 : ℝ), (3 : Nat)).1 = (0 : ℝ) from rfl]
  rw [if_neg (not_lt.2 demo_cut4_nonneg)]
  rw [List.foldl_nil]

theorem demo_qfsplit : Feature.split (.QF "v") demoQ =
    .ok (0, .int 5,
      [(.str "lt", [qA1, qA2, qA3]), (.str "ge", [qB5, qB9])]) := by
  show qfsplit (qfGet "v") demoQ = _
  rw [qfsplit_eq]
  rw [if_neg (by decide), if_neg (by decide)]
  rw [show (qfpairs (qfGet "v") demoQ).map Prod.fst
      = [qA1, qA2, qA3, qB5, qB9] from rfl,
    show (qfpairs (qfGet "v") demoQ).map Prod.snd
      = ([1, 2, 2, 5, 9] : List Int) from rfl,
    show (qfpairs (qfGet "v") demoQ).length = 5 from rfl]
  simp only [demo_qfscan]
  rw [if_pos (show qfundefs (qfGet "v") demoQ = [] from rfl)]
  rfl

/-! ## The claims -/

/-- C7: `calcetp(counts)` of a non-empty collection of positive counts is
`Σ c·log2(n/c) / n` with `n = sum(counts)`; a single count equal to `n`
yields `0`; an empty collection fails loudly (`ZeroDivisionError`, modelled
as `Option.none`) rather than returning a value. -/
theorem c7_calcetp_formula :
    (∀ values : List Nat, values ≠ [] → (∀ v ∈ values, 0 < v) →
      calcetp values = .some ((values.map (fun v : ℕ =>
        (v : ℝ) * Real.logb 2 ((values.sum : ℝ) / (v : ℝ)))).sum /
        (values.sum : ℝ)))
  ∧ (∀ n : Nat, 0 < n → calcetp [n] = .some 0)
  ∧ calcetp [] = .none := by
  refine ⟨?_, ?_, rfl⟩
  · intro values hne hpos
    rw [calcetp_of_pos hne hpos]
    rfl
  · intro n hn
    rw [calcetp_of_pos (by simp)
      (by intro v hv; simp at hv; subst hv; exact hn)]
    rw [calcetpR_single]

/-- C7 witness: the theorem applied at the concrete count list `[3]`. -/
theorem c7_witness : 0 < 3 ∧ calcetp [3] = .some 0 :=
  ⟨by norm_num, c7_calcetp_formula.2.1 3 (by norm_num)⟩

/-- C4 counterexample: on a one-entity set, `split` fails the
`assert 2 <= len(ents)` (an `AssertionError`), not `InvalidSplit` — so
"split signals `InvalidSplit` and no other kind of failure when the set has
fewer than 2 entities" is false as stated. -/
theorem c4_counterexample :
    Feature.split (.DF "a") [⟨0, "A", []⟩] = .error .assertErr ∧
      Err.assertErr ≠ Err.invalidSplit :=
  ⟨dfsplit_assert (by decide), by decide⟩

/-- C4 (amended): for every feature variant, a set of fewer than 2 entities
makes `split` fail its assertion; on a set of at least 2 entities the only
failure `split` can signal is `InvalidSplit`; and a successful split always
yields at least 2 partitions, all non-empty. -/
theorem c4_split_errors (f : Feature) (ents : List Entity) :
    (ents.length < 2 → f.split ents = .error .assertErr)
  ∧ (2 ≤ ents.length → ∀ err, f.split ents = .error err →
      err = .invalidSplit)
  ∧ (∀ etp arg sp, f.split ents = .ok (etp, arg, sp) →
      2 ≤ sp.length ∧ ∀ p ∈ sp, p.2 ≠ []) :=
  ⟨fun h => split_assert f h,
   fun h2 _ h => split_error_invalid h2 h,
   fun _ _ _ h => ⟨split_ok_two_le h, fun p hp => (split_ok_shrinks h p hp).1⟩⟩

/-- C4 witness: the amended theorem applied to a one-entity set. -/
theorem c4_witness :
    ([(⟨0, "A", []⟩ : Entity)] : List Entity).length < 2 ∧
      Feature.split (.MF "t") [⟨0, "A", []⟩] = .error .assertErr :=
  ⟨by decide, (c4_split_errors (.MF "t") [⟨0, "A", []⟩]).1 (by decide)⟩

/-- C2: whenever `split` succeeds with `(weightedEntropy, splitArg,
partitions)`, every entity of every partition subset is routed by
`identify(splitArg, ·)` to exactly that partition's branch value — for every
feature variant. -/
theorem c2_ident_routes (f : Feature) (ents : List Entity) (etp : ℝ)
    (arg : PyVal) (sp : List (PyVal × List Entity))
    (h : f.split ents = .ok (etp, arg, sp)) :
    ∀ p ∈ sp, ∀ e ∈ p.2, f.ident arg e = .some p.1 :=
  split_routes h

/-- C2 witness: the theorem applied to the discrete split of the
demonstration pair. -/
theorem c2_witness :
    Feature.split (.DF "a") demoPair =
      .ok (0, .none, [(.str "x", [entA]), (.str "y", [entB])]) ∧
    Feature.ident (.DF "a") .none entA = .some (.str "x") :=
  ⟨demo_dfsplit,
   c2_ident_routes (.DF "a") demoPair 0 .none _ demo_dfsplit
     (.str "x", [entA]) (by simp) entA (by simp)⟩

/-- C8: every partition subset of a successful split is a non-empty subset
of the input strictly smaller than it, so the fuelled recursion modelling
`TreeBuilder.build` never exhausts a fuel larger than the entity count —
`build` terminates on every finite entity set. -/
theorem c8_termination :
    (∀ (f : Feature) (ents : List Entity) (etp : ℝ) (arg : PyVal)
       (sp : List (PyVal × List Entity)),
      f.split ents = .ok (etp, arg, sp) →
      ∀ p ∈ sp, p.2 ≠ [] ∧ p.2 ⊆ ents ∧ p.2.length < ents.length)
  ∧ (∀ (mk : Nat) (me : ℝ) (feats : List Feature) (fuel : Nat)
       (ents : List Entity), ents.length < fuel →
      buildF mk me feats fuel ents ≠ .error .noFuel)
  ∧ (∀ (mk : Nat) (me : ℝ) (feats : List Feature) (ents : List Entity),
      TreeBuilder.build mk me feats ents ≠ .error .noFuel) :=
  ⟨fun _ _ _ _ _ h => split_ok_shrinks h,
   fun mk me feats fuel ents h => buildF_noFuel mk me feats fuel ents h,
   fun mk me feats ents => build_noFuel mk me feats ents⟩

/-- C8 witness: the theorem applied to the discrete split of the
demonstration pair and to a concrete build. -/
theorem c8_witness :
    ([entA] ≠ [] ∧ [entA] ⊆ demoPair ∧ [entA].length < demoPair.length) ∧
      TreeBuilder.build 2 (1/2) [.DF "a"] demoPair ≠ .error .noFuel :=
  ⟨c8_termination.1 (.DF "a") demoPair 0 .none _ demo_dfsplit
     (.str "x", [entA]) (by simp),
   c8_termination.2.2 2 (1/2) [.DF "a"] demoPair⟩

/-- C9: the feature-selection loop is deterministic winner-take-all with
ties broken by registry order: when the first registered feature attains
the minimal weighted entropy (ties included) among all candidates, it is
the one selected.  (The embedding is a pure function of the entity list and
the registration order, so two runs on identical inputs are definitionally
identical.) -/
theorem c9_tie_break {ents : List Entity} {etp : ℝ} {f : Feature}
    {arg : PyVal} {sp : List (PyVal × List Entity)} {fs : List Feature}
    (hsp : f.split ents = .ok (etp, arg, sp))
    (hmin : ∀ f' ∈ fs, ∀ etp' arg' sp',
      f'.split ents = .ok (etp', arg', sp') → etp ≤ etp')
    (herr : ∀ f' ∈ fs, ∀ err, f'.split ents = .error err →
      err = .invalidSplit) :
    selectbranch ents (f :: fs) .none = .ok (.some (etp, f, arg, sp)) :=
  selectbranch_first hsp hmin herr

/-- C9 witness: `DF:a` and `DF:b` tie at weighted entropy `0` on the
demonstration pair, and the earlier-registered `DF:a` wins. -/
theorem c9_witness :
    selectbranch demoPair [.DF "a", .DF "b"] .none =
      .ok (.some (0, .DF "a", .none,
        [(.str "x", [entA]), (.str "y", [entB])])) := by
  apply c9_tie_break demo_dfsplit
  · intro f' hf' etp' arg' sp' h
    have hf'' : f' = .DF "b" := by simpa using hf'
    subst hf''
    rw [demo_dfsplit_b] at h
    cases h
    exact le_refl 0
  · intro f' hf' err h
    have hf'' : f' = .DF "b" := by simpa using hf'
    subst hf''
    rw [demo_dfsplit_b] at h
    cases h

/-- C5: classification never fails on the data model's trees: a leaf returns
its stored label; a branch whose computed branch value is absent from its
children returns the branch's stored default; a present branch value
recurses into that child; and on any well-formed tree (every branch's
threshold accepted by its feature's `identify`, the §3 invariant)
classification always produces a label. -/
theorem c5_classify_total :
    (∀ (k : String) (e : Entity), Tree.test (.leaf k) e = .some k)
  ∧ (∀ (f : Feature) (arg : PyVal) (dflt : String)
       (cs : List (PyVal × Tree)) (e : Entity) (v : PyVal),
      f.ident arg e = .some v → (∀ p ∈ cs, p.1 ≠ v) →
      Tree.test (.branch f arg dflt cs) e = .some dflt)
  ∧ (∀ (f : Feature) (arg : PyVal) (dflt : String)
       (cs : List (PyVal × Tree)) (e : Entity) (v : PyVal) (c : Tree),
      f.ident arg e = .some v → cs.lookup v = .some c →
      Tree.test (.branch f arg dflt cs) e = c.test e)
  ∧ (∀ (t : Tree) (e : Entity), t.WF → (t.test e).isSome) := by
  refine ⟨fun k e => rfl, ?_, ?_, fun t e h => test_isSome h e⟩
  · intro f arg dflt cs e v hv habs
    simp only [Tree.test, hv]
    exact testLook_absent e dflt v cs habs
  · intro f arg dflt cs e v c hv hc
    simp only [Tree.test, hv]
    exact testLook_found e dflt v cs c hc

/-- C5 witness: a branch over `DF:a` with no child for the branch value
`"x"` of `entA` classifies `entA` to its stored default. -/
theorem c5_witness :
    Feature.ident (.DF "a") .none entA = .some (.str "x") ∧
      Tree.test (.branch (.DF "a") .none "Z" [(.str "q", .leaf "L")]) entA
        = .some "Z" :=
  ⟨rfl, c5_classify_total.2.1 (.DF "a") .none "Z" [(.str "q", .leaf "L")]
    entA (.str "x") rfl (by simp)⟩

/-- C6: any tree produced by `TreeBuilder.build` re-imports from its export
(resolving the serialized feature name through the registry), and the
re-imported tree exports to a structurally identical persisted form:
`export(import(export(t))) == export(t)`. -/
theorem c6_roundtrip {mk : Nat} {me : ℝ} {feats : List Feature}
    {ents : List Entity} {t : Tree}
    (h : TreeBuilder.build mk me feats ents = .ok (.some t)) :
    ∃ t', import_tree feats (export_tree t) = .ok t' ∧
      export_tree t' = export_tree t := by
  have huses : Tree.UsesFeats feats t :=
    buildF_usesFeats mk me feats (ents.length + 1) ents t h
  rcases import_of_uses huses with ⟨t', ht'⟩
  exact ⟨t', ht', export_import_tree feats _ t' ht'⟩

/-- C6 witness: the round trip on the concrete tree built from the
demonstration pair. -/
theorem c6_witness :
    TreeBuilder.build 2 (1/2) [.DF "a"] demoPair = .ok (.some demoTree) ∧
    ∃ t', import_tree [.DF "a"] (export_tree demoTree) = .ok t' ∧
      export_tree t' = export_tree demoTree :=
  ⟨demo_build, c6_roundtrip demo_build⟩

/-- C10: in the scoring phase, a label appears in the `correct` dictionary
exactly when some entity of that label was classified to it; every such
label has a positive correct count and positive predicted (`resp`) and
actual (`keys`) counts, so the precision and recall divisions never divide
by zero; labels with no correct prediction are absent. -/
theorem c10_report (t : Tree) (ents : List Entity)
    (K R C : List (String × Nat))
    (h : score t ents ([], [], []) = .some (K, R, C)) :
    (∀ kv ∈ C, 0 < kv.2 ∧
      (∃ r, R.lookup kv.1 = .some r ∧ 0 < r) ∧
      (∃ a, K.lookup kv.1 = .some a ∧ 0 < a))
  ∧ (∀ k, (C.lookup k).isSome ↔
      ∃ e ∈ ents, e.key = k ∧ t.test e = .some k) := by
  rcases score_spec t ents [] [] [] K R C h (by simp) (by simp)
    (by intro k; simp [List.lookup]) (by intro k; simp [List.lookup]) with
    ⟨p1, p2, p3, p4, p5⟩
  constructor
  · intro kv hkv
    have hpos := p1 kv hkv
    have hlk : C.lookup kv.1 = .some kv.2 := mem_lookup_of_nodupKeys p2 hkv
    refine ⟨hpos, ?_, ?_⟩
    · have hle := p3 kv.1
      rw [hlk] at hle
      cases hR : R.lookup kv.1 with
      | none =>
          rw [hR] at hle
          simp at hle
          omega
      | some r =>
          rw [hR] at hle
          simp at hle
          exact ⟨r, rfl, by omega⟩
    · have hle := p4 kv.1
      rw [hlk] at hle
      cases hK : K.lookup kv.1 with
      | none =>
          rw [hK] at hle
          simp at hle
          omega
      | some a =>
          rw [hK] at hle
          simp at hle
          exact ⟨a, rfl, by omega⟩
  · intro k
    rw [p5 k]
    simp [List.lookup]

/-- C10 witness: the theorem applied to scoring the one-leaf tree `A` on the
demonstration pair; label `A` has one correct, two predicted, one actual,
and label `B` (zero correct) is absent. -/
theorem c10_witness :
    score (.leaf "A") demoPair ([], [], []) =
      .some ([("A", 1), ("B", 1)], [("A", 2)], [("A", 1)]) ∧
    (∀ kv ∈ [(("A" : String), 1)], 0 < kv.2 ∧
      (∃ r, ([(("A" : String), 2)]).lookup kv.1 = .some r ∧ 0 < r) ∧
      (∃ a, ([(("A" : String), 1), ("B", 1)]).lookup kv.1 = .some a ∧ 0 < a)) :=
  ⟨rfl, (c10_report (.leaf "A") demoPair [("A", 1), ("B", 1)] [("A", 2)]
    [("A", 1)] rfl).1⟩

/-- C3: `QuantitativeFeature.split` works on the defined values sorted by
value (`qfpairs`); a successful split's threshold is the value at a scanned
cut whose weighted entropy is minimal among all scanned cuts (the cuts
between adjacent distinct values); entities with undefined value go to a
separate `'un'` partition instead of being dropped.  On the five test
entities with values `1,2,2,5,9` and labels `A,A,A,B,B` the chosen
threshold is `5` and the weighted entropy after the split is `0`. -/
theorem c3_quantitative :
    (∀ (a : String) (ents : List Entity) (etp : ℝ) (arg : PyVal)
       (sp : List (PyVal × List Entity)),
      Feature.split (.QF a) ents = .ok (etp, arg, sp) →
      (∀ e ∈ ents, qfGet a e = .none →
        (.str "un", qfundefs (qfGet a) ents) ∈ sp ∧
          e ∈ qfundefs (qfGet a) ents) ∧
      (∃ m, 1 ≤ m ∧ m < (qfpairs (qfGet a) ents).length ∧
        arg = .int (((qfpairs (qfGet a) ents).map Prod.snd).getD m 0) ∧
        etp = cutEtp ((qfpairs (qfGet a) ents).map Prod.fst)
          (qfpairs (qfGet a) ents).length m ∧
        (∀ j, 1 ≤ j → j < (qfpairs (qfGet a) ents).length →
          ((qfpairs (qfGet a) ents).map Prod.snd).getD (j-1) 0 ≠
            ((qfpairs (qfGet a) ents).map Prod.snd).getD j 0 →
          etp ≤ cutEtp ((qfpairs (qfGet a) ents).map Prod.fst)
            (qfpairs (qfGet a) ents).length j)))
  ∧ Feature.split (.QF "v") demoQ =
      .ok (0, .int 5,
        [(.str "lt", [qA1, qA2, qA3]), (.str "ge", [qB5, qB9])]) := by
  refine ⟨?_, demo_qfsplit⟩
  intro a ents etp arg sp h
  rcases qfsplit_ok h with ⟨hlen2, hp0, m, hscan, harg, hsp⟩
  have hPlen : 1 ≤ (qfpairs (qfGet a) ents).length := by
    have hne : qfpairs (qfGet a) ents ≠ [] := by
      unfold qfpairs
      intro hnil
      have hperm : List.Perm (qfpairs0 (qfGet a) ents) [] := by
        rw [← hnil]
        exact (List.perm_insertionSort pairLE _).symm
      exact hp0 hperm.eq_nil
    exact Nat.one_le_iff_ne_zero.2
      (fun h0 => hne (List.length_eq_zero.1 h0))
  rcases qfscan_some hPlen hscan with ⟨hm1, hmn, _, hetp, hmin⟩
  constructor
  · intro e he hund
    have hmem : e ∈ qfundefs (qfGet a) ents := by
      unfold qfundefs
      rw [List.mem_filter]
      exact ⟨he, by simp [hund]⟩
    have hune : qfundefs (qfGet a) ents ≠ [] := by
      intro h0
      rw [h0] at hmem
      simp at hmem
    refine ⟨?_, hmem⟩
    rw [hsp, if_neg hune]
    simp
  · exact ⟨m, hm1, hmn, harg, hetp, hmin⟩

/-- C3 witness: on the five test entities, the theorem yields the scanned
minimal cut `m = 3`, threshold `5`, weighted entropy `0`. -/
theorem c3_witness :
    ∃ m, 1 ≤ m ∧ m < (qfpairs (qfGet "v") demoQ).length ∧
      PyVal.int 5 = .int (((qfpairs (qfGet "v") demoQ).map Prod.snd).getD m 0) ∧
      (0 : ℝ) = cutEtp ((qfpairs (qfGet "v") demoQ).map Prod.fst)
        (qfpairs (qfGet "v") demoQ).length m :=
  match (c3_quantitative.1 "v" demoQ 0 (.int 5) _ c3_quantitative.2).2 with
  | ⟨m, h1, h2, h3, h4, _⟩ => ⟨m, h1, h2, h3, h4⟩

/-- C1: for a non-empty entity set and a positive entropy threshold (the
trainer's configuration), `TreeBuilder.build` never raises; it returns
`None` exactly when the label entropy is below the threshold, the entity
count is below the minimum count, or every registered feature signals
`InvalidSplit`; otherwise it returns a branch over the winning feature whose
default is the set's majority label and whose children are, per partition,
the recursively built subtree, or a leaf holding the partition's majority
label where the recursion returned `None`. -/
theorem c1_build_spec (mk : Nat) (me : ℝ) (feats : List Feature)
    (ents : List Entity) (h1 : ents ≠ []) (h2 : 0 < me) :
    (∃ r, TreeBuilder.build mk me feats ents = .ok r)
  ∧ (TreeBuilder.build mk me feats ents = .ok .none ↔
      (calcetpR ((countkeys ents).map Prod.snd) < me ∨ ents.length < mk ∨
       ∀ f ∈ feats, f.split ents = .error .invalidSplit))
  ∧ (∀ (wetp : ℝ) (feat : Feature) (arg : PyVal)
       (sp : List (PyVal × List Entity)),
      selectbranch ents feats .none = .ok (.some (wetp, feat, arg, sp)) →
      ¬ calcetpR ((countkeys ents).map Prod.snd) < me →
      ¬ ents.length < mk →
      ∃ dflt, bestkey (countkeys ents) = .some dflt ∧
        TreeBuilder.build mk me feats ents = .ok (.some (.branch feat arg dflt
          (sp.map (fun p => (p.1,
            match TreeBuilder.build mk me feats p.2 with
            | .ok (.some c) => c
            | _ => .leaf ((bestkey (countkeys p.2)).getD ""))))))) := by
  have hc := calcetp_countkeys h1
  have hbuild : TreeBuilder.build mk me feats ents =
      buildF mk me feats (ents.length + 1) ents := rfl
  refine ⟨?_, ⟨?_, ?_⟩, ?_⟩
  · exact buildF_ok mk me feats h2 (ents.length + 1) ents h1 (by omega)
  · -- `build = None` forces one of the three stopping conditions
    intro hb
    by_cases h3 : calcetpR ((countkeys ents).map Prod.snd) < me
    · exact Or.inl h3
    · by_cases h4 : ents.length < mk
      · exact Or.inr (Or.inl h4)
      · refine Or.inr (Or.inr ?_)
        rw [hbuild, buildF_succ] at hb
        simp only [hc] at hb
        rw [if_neg h3, if_neg h4] at hb
        rcases hsel : selectbranch ents feats .none with err | ob
        · simp only [hsel] at hb
          cases hb
        · rcases ob with _ | ⟨wetp, feat, arg, sp⟩
          · exact selectbranch_none_iff.1 hsel
          · simp only [hsel] at hb
            rcases hbk : bestkey (countkeys ents) with _ | dflt
            · simp only [hbk] at hb; cases hb
            · simp only [hbk] at hb
              rcases hbc : buildChildren (buildF mk me feats ents.length) sp
                  with err | cs
              · rw [hbc] at hb; cases hb
              · rw [hbc] at hb; cases hb
  · -- each stopping condition forces `build = None`
    intro hdisj
    rw [hbuild, buildF_succ]
    simp only [hc]
    by_cases h3 : calcetpR ((countkeys ents).map Prod.snd) < me
    · rw [if_pos h3]
    · rw [if_neg h3]
      by_cases h4 : ents.length < mk
      · rw [if_pos h4]
      · rw [if_neg h4]
        rcases hdisj with hd | hd | hd
        · exact absurd hd h3
        · exact absurd hd h4
        · simp only [selectbranch_none_iff.2 hd]
  · -- the branch case
    intro wetp feat arg sp hsel h3 h4
    rcases Option.isSome_iff_exists.1
      (bestkey_isSome (countkeys_ne_nil h1)) with ⟨dflt, hbk⟩
    have hsp : feat.split ents = .ok (wetp, arg, sp) := by
      rcases selectbranch_some_split .none wetp feat arg sp hsel with
        ⟨hh, _⟩ | hh
      · exact hh
      · cases hh
    have hrec : ∀ p ∈ sp, (∃ t, buildF mk me feats ents.length p.2 = .ok t)
        ∧ p.2 ≠ [] := by
      intro p hp
      rcases split_ok_shrinks hsp p hp with ⟨hpne, _, hplt⟩
      exact ⟨buildF_ok mk me feats h2 ents.length p.2 hpne (by omega), hpne⟩
    have hch := buildChildren_eq_map hrec
    have hmapeq : (sp.map (fun p => (p.1,
        match buildF mk me feats ents.length p.2 with
        | .ok (.some t) => t
        | _ => .leaf ((bestkey (countkeys p.2)).getD "")))) =
        (sp.map (fun p => (p.1,
        match TreeBuilder.build mk me feats p.2 with
        | .ok (.some c) => c
        | _ => .leaf ((bestkey (countkeys p.2)).getD "")))) := by
      apply List.map_congr_left
      intro p hp
      rcases split_ok_shrinks hsp p hp with ⟨_, _, hplt⟩
      rw [build_eq_buildF (show p.2.length < ents.length from hplt)]
    refine ⟨dflt, hbk, ?_⟩
    rw [hbuild, buildF_succ]
    simp only [hc]
    rw [if_neg h3, if_neg h4]
    simp only [hsel, hbk]
    rw [hch, hmapeq]

/-- C1 witness: the theorem applied to the demonstration pair with
thresholds `minkeys = 2`, `minetp = 1/2`. -/
theorem c1_witness :
    demoPair ≠ [] ∧ (0 : ℝ) < 1/2 ∧
      ∃ r, TreeBuilder.build 2 (1/2) [.DF "a"] demoPair = .ok r :=
  ⟨by decide, by norm_num,
   (c1_build_spec 2 (1/2) [.DF "a"] demoPair (by decide) (by norm_num)).1⟩

end Learncomm
